import Mathlib

/-!
# Verification of the `wildcard-trie` radix trie (`src/lib.rs`)

Shallow embedding of the Rust crate `wildcard-trie`: a radix trie mapping
string paths to values, with a trailing `/*` wildcard convention.

Modelling conventions:

* A Rust `String`/`&str` is modelled as a `List Char` (its sequence of
  Unicode scalar values).  Rust's `s.len()` is the UTF-8 **byte** length,
  modelled by `byteLen`; byte slicing `&s[i..]` and `String::split_off(i)`
  panic when `i` is not a character boundary, modelled by `byteDrop` /
  `byteTake` returning `none` in that case.
* `HashMap<char, RadixNode<T>>` is modelled as an association list
  `List (Char × RadixNode T)` with the map operations `findChild`
  (lookup) and `setChild` (the `entry(c).or_insert_with(..)` update).
  The trie code never iterates over the map, so entry order is irrelevant.
* Fallible execution (a Rust panic) is an `Option` `none`.
* The recursive procedures `insert`, `get_with_fallback` and `remove`
  descend the tree; in Lean they are written with an explicit fuel
  parameter that makes them structurally recursive and hence kernel
  computable.  Fuel exhaustion is also mapped to `none`; the public
  wrappers pass fuel that is proved (`getAux_adequate`,
  `removeAux_adequate`) or easily seen to exceed the recursion depth,
  and every general theorem below quantifies over the fuel of a
  successful run, so no conclusion depends on the particular bound.
-/

/-- UTF-8 size in bytes of one Unicode scalar value (Rust `char::len_utf8`). -/
def charSize (c : Char) : Nat :=
  if c.val < 128 then 1
  else if c.val < 2048 then 2
  else if c.val < 65536 then 3
  else 4

theorem charSize_pos (c : Char) : 0 < charSize c := by
  unfold charSize
  split <;> [exact Nat.one_pos; split <;> [exact Nat.zero_lt_two; split <;> simp]]

/-- UTF-8 byte length of a string (Rust `str::len`). -/
def byteLen (s : List Char) : Nat :=
  match s with
  | [] => 0
  | c :: cs => charSize c + byteLen cs

/-- Byte-indexed suffix `&s[i..]` (Rust slice).  `none` models the panic when
`i` is not a character boundary or exceeds the length. -/
def byteDrop : Nat → List Char → Option (List Char)
  | 0, s => some s
  | _ + 1, [] => none
  | i, c :: cs => if charSize c ≤ i then byteDrop (i - charSize c) cs else none

/-- Byte-indexed prefix: the part of the string kept by
`String::split_off(i)`.  `none` models the panic on a non-boundary index. -/
def byteTake : Nat → List Char → Option (List Char)
  | 0, _ => some []
  | _ + 1, [] => none
  | i, c :: cs =>
    if charSize c ≤ i then (byteTake (i - charSize c) cs).map (c :: ·) else none

/-- A node of the radix trie (Rust `RadixNode<T>`).  Fields: the stored
prefix (named `pfx` because `prefix` is reserved syntax in Lean), the
children indexed by first character, the exact-match value and the
wildcard value. -/
inductive RadixNode (T : Type) : Type where
  | mk : List Char → List (Char × RadixNode T) → Option T → Option T → RadixNode T

def RadixNode.pfx {T : Type} : RadixNode T → List Char
  | .mk p _ _ _ => p

def RadixNode.children {T : Type} : RadixNode T → List (Char × RadixNode T)
  | .mk _ cs _ _ => cs

def RadixNode.exact_value {T : Type} : RadixNode T → Option T
  | .mk _ _ ev _ => ev

def RadixNode.wildcard_value {T : Type} : RadixNode T → Option T
  | .mk _ _ _ wv => wv

/-- `RadixNode::new`. -/
def RadixNode.new {T : Type} (p : List Char) : RadixNode T :=
  .mk p [] none none

mutual
/-- Number of nodes of a tree; used as the fuel bound for descending
recursions. -/
def nodeSize {T : Type} : RadixNode T → Nat
  | .mk _ cs _ _ => 1 + childrenSize cs
def childrenSize {T : Type} : List (Char × RadixNode T) → Nat
  | [] => 0
  | (_, n) :: t => 1 + nodeSize n + childrenSize t
end

/-- `HashMap::get` on the child map. -/
def findChild {T : Type} : List (Char × RadixNode T) → Char → Option (RadixNode T)
  | [], _ => none
  | (k, n) :: t, c => if k = c then some n else findChild t c

/-- Store/overwrite the entry for key `c` (the net effect of
`HashMap::entry(c).or_insert_with(..)` followed by mutating the entry). -/
def setChild {T : Type} : List (Char × RadixNode T) → Char → RadixNode T → List (Char × RadixNode T)
  | [], c, x => [(c, x)]
  | (k, n) :: t, c, x => if k = c then (k, x) :: t else (k, n) :: setChild t c x

/-- `RadixNode::store_value`. -/
def RadixNode.store_value {T : Type} (n : RadixNode T) (v : T) (is_wildcard : Bool) : RadixNode T :=
  match n with
  | .mk p cs ev wv => if is_wildcard then .mk p cs ev (some v) else .mk p cs (some v) wv

/-- `RadixNode::take_value`: the taken value together with the node
after the slot is cleared. -/
def RadixNode.take_value {T : Type} (n : RadixNode T) (is_wildcard : Bool) :
    Option T × RadixNode T :=
  match n with
  | .mk p cs ev wv =>
    if is_wildcard then (wv, .mk p cs ev none) else (ev, .mk p cs none wv)

/-- `RadixNode::count_common_prefix_chars`: the number of leading
**characters** shared by the node's prefix and the path. -/
def count_common_prefix_chars : List Char → List Char → Nat
  | a :: as, b :: bs => if a = b then count_common_prefix_chars as bs + 1 else 0
  | _, _ => 0

/-- `RadixNode::split_at`: cut the prefix at byte position `pos`, moving the
node's children and values into a new child that keeps the removed suffix.
`none` models the `String::split_off` panic on a non-boundary position
(and the unreachable `.unwrap()` on an empty suffix). -/
def RadixNode.split_at {T : Type} (n : RadixNode T) (pos : Nat) : Option (RadixNode T) :=
  if byteLen n.pfx ≤ pos then some n
  else
    (byteTake pos n.pfx).bind fun kept =>
    (byteDrop pos n.pfx).bind fun suf =>
    match suf with
    | [] => none
    | c :: cs =>
      some (.mk kept [(c, .mk (c :: cs) n.children n.exact_value n.wildcard_value)] none none)

/-- `RadixNode::insert`, fuelled.  One unit of fuel is consumed per recursive
call (each call descends into a child node).  The `entry(..).or_insert_with`
of `insert_in_child` appears as `findChild`/`RadixNode.new`/`setChild`. -/
def insertAux {T : Type} : Nat → RadixNode T → List Char → T → Bool → Option (RadixNode T)
  | 0, _, _, _, _ => none
  | fuel + 1, n, path, v, w =>
    if path.isEmpty then some (n.store_value v w)
    else
      let cl := count_common_prefix_chars n.pfx path
      (if cl < byteLen n.pfx then n.split_at cl else some n).bind fun n1 =>
        if cl < byteLen path then
          (byteDrop cl path).bind fun rest =>
            match rest with
            | [] => none
            | c :: _ =>
              let child := (findChild n1.children c).getD (RadixNode.new rest)
              (insertAux fuel child rest v w).map fun ch =>
                .mk n1.pfx (setChild n1.children c ch) n1.exact_value n1.wildcard_value
        else some (n1.store_value v w)

/-- `RadixNode::get_with_fallback`, fuelled.  The outer `Option` is fuel
exhaustion (never reached from the wrappers below); the inner `Option T` is
the lookup result. -/
def getAux {T : Type} : Nat → RadixNode T → List Char → Option T → Option (Option T)
  | 0, _, _, _ => none
  | fuel + 1, n, path, fallback =>
    let current_fallback := n.wildcard_value.or fallback
    if path.isEmpty then some (n.exact_value.or (n.wildcard_value.or fallback))
    else
      let cl := count_common_prefix_chars n.pfx path
      if cl = byteLen n.pfx then
        match byteDrop cl path with
        | none => some none
        | some remaining =>
          match remaining with
          | [] => some (n.exact_value.or (n.wildcard_value.or current_fallback))
          | c :: _ =>
            match findChild n.children c with
            | some child => getAux fuel child remaining current_fallback
            | none => some current_fallback
      else some fallback

/-- `RadixNode::remove`, fuelled, returning the removed value and the node
after removal.  The outer `Option` is fuel exhaustion only. -/
def removeAux {T : Type} : Nat → RadixNode T → List Char → Bool → Option (Option T × RadixNode T)
  | 0, _, _, _ => none
  | fuel + 1, n, path, w =>
    if path.isEmpty then some (n.take_value w)
    else
      let cl := count_common_prefix_chars n.pfx path
      if cl = byteLen n.pfx then
        match byteDrop cl path with
        | none => some (none, n)
        | some remaining =>
          match remaining with
          | [] => some (n.take_value w)
          | c :: _ =>
            match findChild n.children c with
            | some child =>
              (removeAux fuel child remaining w).map fun pr =>
                (pr.1, .mk n.pfx (setChild n.children c pr.2) n.exact_value n.wildcard_value)
            | none => some (none, n)
      else some (none, n)

/-- `RadixNode::get_with_fallback` with adequate fuel: every descent enters a
structurally smaller child, so `sizeOf n + 1` units suffice
(`getAux_adequate`). -/
def RadixNode.get_with_fallback {T : Type} (n : RadixNode T) (path : List Char)
    (fallback : Option T) : Option T :=
  (getAux (nodeSize n + 1) n path fallback).getD none

/-- `RadixNode::get`. -/
def RadixNode.get {T : Type} (n : RadixNode T) (path : List Char) : Option T :=
  n.get_with_fallback path none

/-- `RadixNode::remove` with adequate fuel (`removeAux_adequate`). -/
def RadixNode.remove {T : Type} (n : RadixNode T) (path : List Char) (w : Bool) :
    Option T × RadixNode T :=
  (removeAux (nodeSize n + 1) n path w).getD (none, n)

/-- `RadixNode::insert` with generous fuel.  Insertion may genuinely panic
(`split_at` on a non-boundary position), so the result stays an `Option`;
`none` from fuel exhaustion cannot occur because a successful run descends
into an existing child (bounded by `sizeOf n`) or strictly shortens the
remaining path (bounded by `byteLen path`) at every other step. -/
def RadixNode.insert {T : Type} (n : RadixNode T) (path : List Char) (v : T) (w : Bool) :
    Option (RadixNode T) :=
  insertAux (nodeSize n + 2 * byteLen path + 2) n path v w

/-- The public handle `Trie<T>` owning the root node. -/
structure Trie (T : Type) : Type where
  root : RadixNode T

/-- `Trie::new` / `Default`: root with the empty prefix. -/
def Trie.new {T : Type} : Trie T := ⟨RadixNode.new []⟩

/-- `WILDCARD_SUFFIX`, the two-character marker. -/
def WILDCARD_SUFFIX : List Char := ['/', '*']

/-- `str::strip_suffix`: `some` of the shortened string when `suf` is a
suffix, otherwise `none`. -/
def stripSuffix (path suf : List Char) : Option (List Char) :=
  if suf <:+ path then some (path.take (path.length - suf.length)) else none

/-- `Trie::parse_path`: split off a trailing wildcard marker. -/
def Trie.parse_path (path : List Char) : List Char × Bool :=
  match stripSuffix path WILDCARD_SUFFIX with
  | some p => (p, true)
  | none => (path, false)

/-- `Trie::insert` (public).  `none` models a panic inside the call. -/
def Trie.insert {T : Type} (t : Trie T) (path : List Char) (v : T) : Option (Trie T) :=
  let (clean_path, is_wildcard) := Trie.parse_path path
  (t.root.insert clean_path v is_wildcard).map Trie.mk

/-- `Trie::get` (public).  Note: the source passes the path to the node
lookup unchanged, without `parse_path`. -/
def Trie.get {T : Type} (t : Trie T) (path : List Char) : Option T :=
  t.root.get path

/-- `Trie::remove` (public): the removed value and the resulting trie. -/
def Trie.remove {T : Type} (t : Trie T) (path : List Char) : Option T × Trie T :=
  let (clean_path, is_wildcard) := Trie.parse_path path
  let pr := t.root.remove clean_path is_wildcard
  (pr.1, ⟨pr.2⟩)

/-- `Trie::is_empty`. -/
def Trie.is_empty {T : Type} (t : Trie T) : Bool :=
  t.root.children.isEmpty && t.root.exact_value.isNone && t.root.wildcard_value.isNone

/-- A path all of whose characters are single UTF-8 bytes (ASCII); on such
paths Rust's byte indices and the character counts coincide. -/
def asciiPath (p : List Char) : Prop := ∀ c ∈ p, charSize c = 1

instance (p : List Char) : Decidable (asciiPath p) := by
  unfold asciiPath; infer_instance

mutual
/-- No wildcard value is stored anywhere in the (sub)tree: such a tree holds
no wildcard route at all, so no query can be answered from a wildcard. -/
def noWild {T : Type} : RadixNode T → Bool
  | .mk _ cs _ wv => wv.isNone && noWildList cs
def noWildList {T : Type} : List (Char × RadixNode T) → Bool
  | [] => true
  | (_, n) :: t => noWild n && noWildList t
end

/-! ## Basic lemmas about byte lengths, slicing and common prefixes -/

theorem length_le_byteLen (p : List Char) : p.length ≤ byteLen p := by
  induction p with
  | nil => simp [byteLen]
  | cons c cs ih => have := charSize_pos c; simp only [byteLen, List.length_cons]; omega

theorem byteLen_pos {p : List Char} (h : p ≠ []) : 0 < byteLen p := by
  cases p with
  | nil => exact absurd rfl h
  | cons c cs => have := charSize_pos c; simp only [byteLen]; omega

theorem asciiPath_byteLen {p : List Char} (h : asciiPath p) : byteLen p = p.length := by
  induction p with
  | nil => rfl
  | cons c cs ih =>
    have hc : charSize c = 1 := h c (by simp)
    have hcs : asciiPath cs := fun d hd => h d (by simp [hd])
    simp only [byteLen, List.length_cons, hc, ih hcs]
    omega

theorem byteDrop_zero (p : List Char) : byteDrop 0 p = some p := by simp [byteDrop]

theorem byteDrop_of_ascii {i : Nat} {p : List Char}
    (h : ∀ c ∈ p.take i, charSize c = 1) (hi : i ≤ p.length) :
    byteDrop i p = some (p.drop i) := by
  induction i generalizing p with
  | zero => simp [byteDrop]
  | succ j ih =>
    cases p with
    | nil => simp at hi
    | cons c cs =>
      have hc : charSize c = 1 := h c (by simp)
      have hcs : ∀ d ∈ cs.take j, charSize d = 1 := by
        intro d hd; exact h d (by simp [hd])
      simp only [byteDrop, hc, List.drop_succ_cons]
      rw [if_pos (by omega)]
      have : j + 1 - 1 = j := by omega
      rw [this, ih hcs (by simpa using hi)]

theorem byteTake_of_ascii {i : Nat} {p : List Char}
    (h : ∀ c ∈ p.take i, charSize c = 1) (hi : i ≤ p.length) :
    byteTake i p = some (p.take i) := by
  induction i generalizing p with
  | zero => simp [byteTake]
  | succ j ih =>
    cases p with
    | nil => simp at hi
    | cons c cs =>
      have hc : charSize c = 1 := h c (by simp)
      have hcs : ∀ d ∈ cs.take j, charSize d = 1 := by
        intro d hd; exact h d (by simp [hd])
      simp only [byteTake, hc, List.take_succ_cons]
      rw [if_pos (by omega)]
      have : j + 1 - 1 = j := by omega
      rw [this, ih hcs (by simpa using hi)]
      rfl

theorem byteDrop_byteLen {i : Nat} {p q : List Char} (h : byteDrop i p = some q) :
    byteLen q + i = byteLen p := by
  induction p generalizing i with
  | nil =>
    cases i with
    | zero => simp [byteDrop] at h; simp [h]
    | succ j => simp [byteDrop] at h
  | cons c cs ih =>
    cases i with
    | zero => simp [byteDrop] at h; simp [h]
    | succ j =>
      simp only [byteDrop] at h
      split at h
      · have := ih h
        have := charSize_pos c
        simp only [byteLen]
        omega
      all_goals simp_all

theorem byteDrop_length_lt {i : Nat} {p q : List Char} (h : byteDrop i p = some q)
    (hi : 0 < i) : q.length < p.length := by
  induction p generalizing i with
  | nil =>
    cases i with
    | zero => omega
    | succ j => simp [byteDrop] at h
  | cons c cs ih =>
    cases i with
    | zero => omega
    | succ j =>
      simp only [byteDrop] at h
      split at h
      · rename_i hle
        by_cases hz : j + 1 - charSize c = 0
        · rw [hz] at h
          simp [byteDrop] at h
          simp [← h]
        · have := ih h (by omega)
          simp only [List.length_cons]
          omega
      all_goals simp_all

theorem ccp_nil_left (b : List Char) : count_common_prefix_chars [] b = 0 := by
  cases b <;> rfl

theorem ccp_nil_right (a : List Char) : count_common_prefix_chars a [] = 0 := by
  cases a <;> rfl

theorem ccp_cons (x y : Char) (a b : List Char) :
    count_common_prefix_chars (x :: a) (y :: b) =
      if x = y then count_common_prefix_chars a b + 1 else 0 := rfl

theorem ccp_le_length_left (a b : List Char) : count_common_prefix_chars a b ≤ a.length := by
  induction a generalizing b with
  | nil => simp [ccp_nil_left]
  | cons x a ih =>
    cases b with
    | nil => simp [ccp_nil_right]
    | cons y b =>
      rw [ccp_cons]
      split
      · have := ih b; simp only [List.length_cons]; omega
      · omega

theorem ccp_le_length_right (a b : List Char) : count_common_prefix_chars a b ≤ b.length := by
  induction a generalizing b with
  | nil => simp [ccp_nil_left]
  | cons x a ih =>
    cases b with
    | nil => simp [ccp_nil_right]
    | cons y b =>
      rw [ccp_cons]
      split
      · have := ih b; simp only [List.length_cons]; omega
      · omega

theorem ccp_take_eq (a b : List Char) :
    a.take (count_common_prefix_chars a b) = b.take (count_common_prefix_chars a b) := by
  induction a generalizing b with
  | nil => simp [ccp_nil_left]
  | cons x a ih =>
    cases b with
    | nil => simp [ccp_nil_right]
    | cons y b =>
      rw [ccp_cons]
      split
      · rename_i hxy
        simp only [List.take_succ_cons, hxy, ih b]
      · simp

theorem ccp_of_prefix {a b : List Char} (h : a <+: b) :
    count_common_prefix_chars a b = a.length := by
  obtain ⟨e, rfl⟩ := h
  induction a with
  | nil => simp [ccp_nil_left]
  | cons x a ih => simp [ccp_cons, ih]

theorem ccp_self (a : List Char) : count_common_prefix_chars a a = a.length :=
  ccp_of_prefix (List.prefix_refl a)

theorem ccp_append_right (a e : List Char) :
    count_common_prefix_chars a (a ++ e) = a.length :=
  ccp_of_prefix ⟨e, rfl⟩

theorem ccp_take_left (k : Nat) (a b : List Char) :
    count_common_prefix_chars (a.take k) b = min k (count_common_prefix_chars a b) := by
  induction a generalizing k b with
  | nil => simp [ccp_nil_left]
  | cons x a ih =>
    cases k with
    | zero => simp [ccp_nil_left]
    | succ j =>
      cases b with
      | nil => simp [ccp_nil_right]
      | cons y b =>
        simp only [List.take_succ_cons, ccp_cons]
        split
        · rw [ih j b]; omega
        · simp

theorem ccp_drop {k : Nat} {a b : List Char} (h : k ≤ count_common_prefix_chars a b) :
    count_common_prefix_chars (a.drop k) (b.drop k) =
      count_common_prefix_chars a b - k := by
  induction k generalizing a b with
  | zero => simp
  | succ j ih =>
    cases a with
    | nil => simp [ccp_nil_left] at h
    | cons x a =>
      cases b with
      | nil => simp [ccp_nil_right] at h
      | cons y b =>
        rw [ccp_cons] at h ⊢
        split at h
        · rename_i hxy
          simp only [List.drop_succ_cons, if_pos hxy]
          rw [ih (by omega)]
          omega
        · omega

theorem ccp_stop {a b : List Char} (h1 : count_common_prefix_chars a b < a.length)
    (h2 : count_common_prefix_chars a b < b.length) :
    ∃ x y a2 b2, a.drop (count_common_prefix_chars a b) = x :: a2 ∧
      b.drop (count_common_prefix_chars a b) = y :: b2 ∧ x ≠ y := by
  induction a generalizing b with
  | nil => simp at h1
  | cons x a ih =>
    cases b with
    | nil => simp at h2
    | cons y b =>
      rw [ccp_cons] at h1 h2 ⊢
      split
      · rename_i hxy
        simp only [List.length_cons] at h1 h2
        rw [if_pos hxy] at h1 h2
        obtain ⟨x2, y2, a2, b2, ha, hb, hne⟩ := ih (by omega) (b := b) (by omega)
        exact ⟨x2, y2, a2, b2, by simpa using ha, by simpa using hb, hne⟩
      · rename_i hxy
        exact ⟨x, y, a, b, by simp, by simp, hxy⟩

/-! ## Lemmas about the child map -/

theorem findChild_size {T : Type} {cs : List (Char × RadixNode T)} {c : Char}
    {n : RadixNode T} (h : findChild cs c = some n) : nodeSize n < childrenSize cs := by
  induction cs with
  | nil => simp [findChild] at h
  | cons hd t ih =>
    obtain ⟨k, m⟩ := hd
    simp only [findChild] at h
    split at h
    · cases h; simp only [childrenSize]; omega
    · have := ih h; simp only [childrenSize]; omega

theorem findChild_setChild_self {T : Type} (cs : List (Char × RadixNode T)) (c : Char)
    (x : RadixNode T) : findChild (setChild cs c x) c = some x := by
  induction cs with
  | nil => simp [setChild, findChild]
  | cons hd t ih =>
    obtain ⟨k, m⟩ := hd
    simp only [setChild]
    split
    · rename_i hk; simp [findChild, hk]
    · rename_i hk; simp [findChild, hk, ih]

theorem findChild_setChild_ne {T : Type} (cs : List (Char × RadixNode T)) {c c' : Char}
    (x : RadixNode T) (h : c' ≠ c) : findChild (setChild cs c x) c' = findChild cs c' := by
  induction cs with
  | nil =>
    simp only [setChild, findChild]
    rw [if_neg fun hh => h hh.symm]
  | cons hd t ih =>
    obtain ⟨k, m⟩ := hd
    simp only [setChild]
    split
    · rename_i hk
      have hne : ¬ k = c' := by rw [hk]; exact fun hh => h hh.symm
      simp [findChild, hne]
    · simp only [findChild, ih]

theorem setChild_found_eq {T : Type} {cs : List (Char × RadixNode T)} {c : Char}
    {x : RadixNode T} (h : findChild cs c = some x) : setChild cs c x = cs := by
  induction cs with
  | nil => simp [findChild] at h
  | cons hd t ih =>
    obtain ⟨k, m⟩ := hd
    simp only [findChild] at h
    simp only [setChild]
    split at h
    · cases h; rename_i hk; simp [hk]
    · rename_i hk; simp [hk, ih h]

theorem setChild_ne_nil {T : Type} (cs : List (Char × RadixNode T)) (c : Char)
    (x : RadixNode T) : setChild cs c x ≠ [] := by
  cases cs with
  | nil => simp [setChild]
  | cons hd t =>
    obtain ⟨k, m⟩ := hd
    simp only [setChild]
    split <;> simp

/-! ## Small structural lemmas -/

@[simp] theorem RadixNode.pfx_mk {T : Type} (p : List Char) (cs : List (Char × RadixNode T))
    (ev wv : Option T) : (RadixNode.mk p cs ev wv).pfx = p := rfl

@[simp] theorem RadixNode.children_mk {T : Type} (p : List Char)
    (cs : List (Char × RadixNode T)) (ev wv : Option T) :
    (RadixNode.mk p cs ev wv).children = cs := rfl

@[simp] theorem RadixNode.exact_value_mk {T : Type} (p : List Char)
    (cs : List (Char × RadixNode T)) (ev wv : Option T) :
    (RadixNode.mk p cs ev wv).exact_value = ev := rfl

@[simp] theorem RadixNode.wildcard_value_mk {T : Type} (p : List Char)
    (cs : List (Char × RadixNode T)) (ev wv : Option T) :
    (RadixNode.mk p cs ev wv).wildcard_value = wv := rfl

theorem RadixNode.eta {T : Type} (n : RadixNode T) :
    RadixNode.mk n.pfx n.children n.exact_value n.wildcard_value = n := by
  cases n; rfl

theorem nodeSize_eq {T : Type} (n : RadixNode T) :
    nodeSize n = 1 + childrenSize n.children := by
  cases n; rfl

theorem Option.or_self_left {T : Type} (a b : Option T) : a.or (a.or b) = a.or b := by
  cases a <;> rfl

/-! ## Fuel monotonicity and adequacy -/

theorem getAux_mono {T : Type} {f g : Nat} (hfg : f ≤ g) {n : RadixNode T}
    {path : List Char} {fb r : Option T}
    (h : getAux f n path fb = some r) : getAux g n path fb = some r := by
  induction f generalizing g n path fb r with
  | zero => simp [getAux] at h
  | succ f ih =>
    obtain ⟨g', rfl⟩ : ∃ g', g = g' + 1 := ⟨g - 1, by omega⟩
    have hfg' : f ≤ g' := by omega
    simp only [getAux] at h ⊢
    by_cases hp : path.isEmpty
    · simp only [if_pos hp] at h ⊢; exact h
    · simp only [if_neg hp] at h ⊢
      by_cases hcl : count_common_prefix_chars n.pfx path = byteLen n.pfx
      · simp only [if_pos hcl] at h ⊢
        cases hbd : byteDrop (count_common_prefix_chars n.pfx path) path with
        | none => simp only [hbd] at h ⊢; exact h
        | some remaining =>
          simp only [hbd] at h ⊢
          cases remaining with
          | nil => exact h
          | cons c rem =>
            cases hfc : findChild n.children c with
            | none => simp only [hfc] at h ⊢; exact h
            | some child =>
              simp only [hfc] at h ⊢
              exact ih hfg' h
      · simp only [if_neg hcl] at h ⊢; exact h

theorem getAux_adequate {T : Type} {f : Nat} {n : RadixNode T} {path : List Char}
    {fb : Option T} (hf : nodeSize n < f) : (getAux f n path fb).isSome := by
  induction f generalizing n path fb with
  | zero => omega
  | succ f ih =>
    simp only [getAux]
    by_cases hp : path.isEmpty
    · simp [hp]
    · simp only [if_neg hp]
      by_cases hcl : count_common_prefix_chars n.pfx path = byteLen n.pfx
      · simp only [if_pos hcl]
        cases hbd : byteDrop (count_common_prefix_chars n.pfx path) path with
        | none => simp
        | some remaining =>
          cases remaining with
          | nil => simp
          | cons c rem =>
            cases hfc : findChild n.children c with
            | none => simp [hfc]
            | some child =>
              have hcs : nodeSize child < childrenSize n.children := findChild_size hfc
              have hn : nodeSize n = 1 + childrenSize n.children := nodeSize_eq n
              simp only [hfc]
              exact ih (by omega)
      · simp [hcl]

theorem removeAux_mono {T : Type} {f g : Nat} (hfg : f ≤ g) {n : RadixNode T}
    {path : List Char} {w : Bool} {r : Option T × RadixNode T}
    (h : removeAux f n path w = some r) : removeAux g n path w = some r := by
  induction f generalizing g n path w r with
  | zero => simp [removeAux] at h
  | succ f ih =>
    obtain ⟨g', rfl⟩ : ∃ g', g = g' + 1 := ⟨g - 1, by omega⟩
    have hfg' : f ≤ g' := by omega
    simp only [removeAux] at h ⊢
    by_cases hp : path.isEmpty
    · simp only [if_pos hp] at h ⊢; exact h
    · simp only [if_neg hp] at h ⊢
      by_cases hcl : count_common_prefix_chars n.pfx path = byteLen n.pfx
      · simp only [if_pos hcl] at h ⊢
        cases hbd : byteDrop (count_common_prefix_chars n.pfx path) path with
        | none => simp only [hbd] at h ⊢; exact h
        | some remaining =>
          simp only [hbd] at h ⊢
          cases remaining with
          | nil => exact h
          | cons c rem =>
            cases hfc : findChild n.children c with
            | none => simp only [hfc] at h ⊢; exact h
            | some child =>
              simp only [hfc] at h ⊢
              cases hrec : removeAux f child (c :: rem) w with
              | none => rw [hrec] at h; simp at h
              | some pr =>
                rw [hrec] at h
                rw [ih hfg' hrec]
                exact h
      · simp only [if_neg hcl] at h ⊢; exact h

theorem removeAux_adequate {T : Type} {f : Nat} {n : RadixNode T} {path : List Char}
    {w : Bool} (hf : nodeSize n < f) : (removeAux f n path w).isSome := by
  induction f generalizing n path w with
  | zero => omega
  | succ f ih =>
    simp only [removeAux]
    by_cases hp : path.isEmpty
    · simp [hp]
    · simp only [if_neg hp]
      by_cases hcl : count_common_prefix_chars n.pfx path = byteLen n.pfx
      · simp only [if_pos hcl]
        cases hbd : byteDrop (count_common_prefix_chars n.pfx path) path with
        | none => simp
        | some remaining =>
          cases remaining with
          | nil => simp
          | cons c rem =>
            cases hfc : findChild n.children c with
            | none => simp [hfc]
            | some child =>
              have hcs : nodeSize child < childrenSize n.children := findChild_size hfc
              have hn : nodeSize n = 1 + childrenSize n.children := nodeSize_eq n
              have hsm := @ih child (c :: rem) w (by omega)
              simp only [hfc]
              cases hrec : removeAux f child (c :: rem) w with
              | none => rw [hrec] at hsm; simp at hsm
              | some pr => simp [hrec]
      · simp [hcl]

theorem insertAux_mono {T : Type} {f g : Nat} (hfg : f ≤ g) {n n' : RadixNode T}
    {path : List Char} {v : T} {w : Bool}
    (h : insertAux f n path v w = some n') : insertAux g n path v w = some n' := by
  induction f generalizing g n n' path v w with
  | zero => simp [insertAux] at h
  | succ f ih =>
    obtain ⟨g', rfl⟩ : ∃ g', g = g' + 1 := ⟨g - 1, by omega⟩
    have hfg' : f ≤ g' := by omega
    simp only [insertAux] at h ⊢
    by_cases hp : path.isEmpty
    · simp only [if_pos hp] at h ⊢; exact h
    · simp only [if_neg hp] at h ⊢
      cases hsp : (if count_common_prefix_chars n.pfx path < byteLen n.pfx
          then n.split_at (count_common_prefix_chars n.pfx path) else some n) with
      | none =>
        rw [hsp] at h
        simp at h
      | some n1 =>
        rw [hsp] at h
        try rw [hsp]
        simp only [Option.some_bind] at h ⊢
        by_cases hcl : count_common_prefix_chars n.pfx path < byteLen path
        · simp only [if_pos hcl] at h ⊢
          cases hbd : byteDrop (count_common_prefix_chars n.pfx path) path with
          | none =>
            rw [hbd] at h
            simp at h
          | some rest =>
            rw [hbd] at h
            try rw [hbd]
            simp only [Option.some_bind] at h ⊢
            cases rest with
            | nil => simp at h
            | cons c rem =>
              simp only at h ⊢
              cases hrec : insertAux f ((findChild n1.children c).getD (RadixNode.new (c :: rem))) (c :: rem) v w with
              | none =>
                rw [hrec] at h
                simp at h
              | some ch =>
                rw [hrec] at h
                rw [ih hfg' hrec]
                exact h
        · simp only [if_neg hcl] at h ⊢; exact h

/-- Any two successful fuelled runs agree. -/
theorem getAux_det {T : Type} {f g : Nat} {n : RadixNode T} {path : List Char}
    {fb r r' : Option T} (h1 : getAux f n path fb = some r)
    (h2 : getAux g n path fb = some r') : r = r' := by
  rcases Nat.le_total f g with hle | hle
  · have := getAux_mono hle h1; rw [this] at h2; exact Option.some.inj h2
  · have := getAux_mono hle h2; rw [this] at h1; exact (Option.some.inj h1).symm

theorem removeAux_det {T : Type} {f g : Nat} {n : RadixNode T} {path : List Char}
    {w : Bool} {r r' : Option T × RadixNode T} (h1 : removeAux f n path w = some r)
    (h2 : removeAux g n path w = some r') : r = r' := by
  rcases Nat.le_total f g with hle | hle
  · have := removeAux_mono hle h1; rw [this] at h2; exact Option.some.inj h2
  · have := removeAux_mono hle h2; rw [this] at h1; exact (Option.some.inj h1).symm

/-- A successful fuelled lookup computes `get_with_fallback`. -/
theorem get_wf_of_getAux {T : Type} {f : Nat} {n : RadixNode T} {path : List Char}
    {fb r : Option T} (h : getAux f n path fb = some r) :
    n.get_with_fallback path fb = r := by
  have had := @getAux_adequate T (nodeSize n + 1) n path fb (by omega)
  obtain ⟨r', hr'⟩ := Option.isSome_iff_exists.mp had
  have := getAux_det hr' h
  unfold RadixNode.get_with_fallback
  rw [hr', this]
  rfl

/-- A successful fuelled removal computes `RadixNode.remove`. -/
theorem remove_of_removeAux {T : Type} {f : Nat} {n : RadixNode T} {path : List Char}
    {w : Bool} {pr : Option T × RadixNode T} (h : removeAux f n path w = some pr) :
    n.remove path w = pr := by
  have had := @removeAux_adequate T (nodeSize n + 1) n path w (by omega)
  obtain ⟨r', hr'⟩ := Option.isSome_iff_exists.mp had
  have := removeAux_det hr' h
  unfold RadixNode.remove
  rw [hr', this]
  rfl

/-! ## One-step evaluation rules for `get_with_fallback` and `remove` -/

theorem isEmpty_false_of_ne {α : Type} {p : List α} (h : p ≠ []) : p.isEmpty = false := by
  cases p with
  | nil => exact absurd rfl h
  | cons c cs => rfl

theorem gwf_nil {T : Type} (n : RadixNode T) (fb : Option T) :
    n.get_with_fallback [] fb = n.exact_value.or (n.wildcard_value.or fb) := by
  apply get_wf_of_getAux (f := 1)
  simp [getAux]

theorem gwf_diverge {T : Type} {n : RadixNode T} {path : List Char} (fb : Option T)
    (hp : path ≠ []) (hcl : count_common_prefix_chars n.pfx path ≠ byteLen n.pfx) :
    n.get_with_fallback path fb = fb := by
  apply get_wf_of_getAux (f := 1)
  simp [getAux, isEmpty_false_of_ne hp, hcl]

theorem gwf_exact {T : Type} {n : RadixNode T} {path : List Char} (fb : Option T)
    (hp : path ≠ [])
    (hcl : count_common_prefix_chars n.pfx path = byteLen n.pfx)
    (hbd : byteDrop (count_common_prefix_chars n.pfx path) path = some []) :
    n.get_with_fallback path fb = n.exact_value.or (n.wildcard_value.or fb) := by
  apply get_wf_of_getAux (f := 1)
  rw [hcl] at hbd
  simp [getAux, isEmpty_false_of_ne hp, hcl, hbd, Option.or_self_left]

theorem gwf_nochild {T : Type} {n : RadixNode T} {path : List Char} (fb : Option T)
    {c : Char} {rem : List Char}
    (hp : path ≠ [])
    (hcl : count_common_prefix_chars n.pfx path = byteLen n.pfx)
    (hbd : byteDrop (count_common_prefix_chars n.pfx path) path = some (c :: rem))
    (hfc : findChild n.children c = none) :
    n.get_with_fallback path fb = n.wildcard_value.or fb := by
  apply get_wf_of_getAux (f := 1)
  rw [hcl] at hbd
  simp [getAux, isEmpty_false_of_ne hp, hcl, hbd, hfc]

theorem gwf_child {T : Type} {n : RadixNode T} {path : List Char} (fb : Option T)
    {c : Char} {rem : List Char} {child : RadixNode T}
    (hp : path ≠ [])
    (hcl : count_common_prefix_chars n.pfx path = byteLen n.pfx)
    (hbd : byteDrop (count_common_prefix_chars n.pfx path) path = some (c :: rem))
    (hfc : findChild n.children c = some child) :
    n.get_with_fallback path fb =
      child.get_with_fallback (c :: rem) (n.wildcard_value.or fb) := by
  have hlt : nodeSize child < nodeSize n := by
    have := findChild_size hfc
    have := nodeSize_eq n
    omega
  have had := @getAux_adequate T (nodeSize child + 1) child (c :: rem)
    (n.wildcard_value.or fb) (by omega)
  obtain ⟨r, hr⟩ := Option.isSome_iff_exists.mp had
  have hchild : child.get_with_fallback (c :: rem) (n.wildcard_value.or fb) = r :=
    get_wf_of_getAux hr
  rw [hchild]
  apply get_wf_of_getAux (f := nodeSize n + 1)
  have hmono : getAux (nodeSize n) child (c :: rem) (n.wildcard_value.or fb) = some r :=
    getAux_mono (by omega) hr
  rw [hcl] at hbd
  simp [getAux, isEmpty_false_of_ne hp, hcl, hbd, hfc, hmono]

theorem rmv_nil {T : Type} (n : RadixNode T) (w : Bool) :
    n.remove [] w = n.take_value w := by
  apply remove_of_removeAux (f := 1)
  simp [removeAux]

theorem rmv_diverge {T : Type} {n : RadixNode T} {path : List Char} (w : Bool)
    (hp : path ≠ []) (hcl : count_common_prefix_chars n.pfx path ≠ byteLen n.pfx) :
    n.remove path w = (none, n) := by
  apply remove_of_removeAux (f := 1)
  simp [removeAux, isEmpty_false_of_ne hp, hcl]

theorem rmv_exact {T : Type} {n : RadixNode T} {path : List Char} (w : Bool)
    (hp : path ≠ [])
    (hcl : count_common_prefix_chars n.pfx path = byteLen n.pfx)
    (hbd : byteDrop (count_common_prefix_chars n.pfx path) path = some []) :
    n.remove path w = n.take_value w := by
  apply remove_of_removeAux (f := 1)
  rw [hcl] at hbd
  simp [removeAux, isEmpty_false_of_ne hp, hcl, hbd]

theorem rmv_nochild {T : Type} {n : RadixNode T} {path : List Char} (w : Bool)
    {c : Char} {rem : List Char}
    (hp : path ≠ [])
    (hcl : count_common_prefix_chars n.pfx path = byteLen n.pfx)
    (hbd : byteDrop (count_common_prefix_chars n.pfx path) path = some (c :: rem))
    (hfc : findChild n.children c = none) :
    n.remove path w = (none, n) := by
  apply remove_of_removeAux (f := 1)
  rw [hcl] at hbd
  simp [removeAux, isEmpty_false_of_ne hp, hcl, hbd, hfc]

theorem rmv_child {T : Type} {n : RadixNode T} {path : List Char} (w : Bool)
    {c : Char} {rem : List Char} {child : RadixNode T}
    (hp : path ≠ [])
    (hcl : count_common_prefix_chars n.pfx path = byteLen n.pfx)
    (hbd : byteDrop (count_common_prefix_chars n.pfx path) path = some (c :: rem))
    (hfc : findChild n.children c = some child) :
    n.remove path w =
      ((child.remove (c :: rem) w).1,
        .mk n.pfx (setChild n.children c (child.remove (c :: rem) w).2)
          n.exact_value n.wildcard_value) := by
  have hlt : nodeSize child < nodeSize n := by
    have := findChild_size hfc
    have := nodeSize_eq n
    omega
  have had := @removeAux_adequate T (nodeSize child + 1) child (c :: rem) w (by omega)
  obtain ⟨pr, hpr⟩ := Option.isSome_iff_exists.mp had
  have hchild : child.remove (c :: rem) w = pr := remove_of_removeAux hpr
  rw [hchild]
  apply remove_of_removeAux (f := nodeSize n + 1)
  have hmono : removeAux (nodeSize n) child (c :: rem) w = some pr :=
    removeAux_mono (by omega) hpr
  rw [hcl] at hbd
  simp [removeAux, isEmpty_false_of_ne hp, hcl, hbd, hfc, hmono]

/-! ## Value-slot characterizations and splitting on an ASCII-common prefix -/

theorem store_value_false {T : Type} (n : RadixNode T) (v : T) :
    n.store_value v false = .mk n.pfx n.children (some v) n.wildcard_value := by
  cases n; rfl

theorem store_value_true {T : Type} (n : RadixNode T) (v : T) :
    n.store_value v true = .mk n.pfx n.children n.exact_value (some v) := by
  cases n; rfl

theorem take_value_false {T : Type} (n : RadixNode T) :
    n.take_value false = (n.exact_value, .mk n.pfx n.children none n.wildcard_value) := by
  cases n; rfl

theorem take_value_true {T : Type} (n : RadixNode T) :
    n.take_value true = (n.wildcard_value, .mk n.pfx n.children n.exact_value none) := by
  cases n; rfl

theorem store_value_cases {T : Type} (n : RadixNode T) (v : T) (w : Bool) :
    n.store_value v w =
      .mk n.pfx n.children (if w then n.exact_value else some v)
        (if w then some v else n.wildcard_value) := by
  cases w
  · simp [store_value_false]
  · simp [store_value_true]

theorem take_value_cases {T : Type} (n : RadixNode T) (w : Bool) :
    n.take_value w =
      ((if w then n.wildcard_value else n.exact_value),
        .mk n.pfx n.children (if w then n.exact_value else none)
          (if w then none else n.wildcard_value)) := by
  cases w
  · simp [take_value_false]
  · simp [take_value_true]

theorem asciiPath_take {p : List Char} (hascii : asciiPath p) (i : Nat) :
    asciiPath (p.take i) := fun c hc => hascii c (List.mem_of_mem_take hc)

theorem asciiPath_drop {p : List Char} (hascii : asciiPath p) (i : Nat) :
    asciiPath (p.drop i) := fun c hc => hascii c (List.mem_of_mem_drop hc)

theorem byteLen_take_ascii {p : List Char} (hascii : asciiPath p) {i : Nat}
    (hi : i ≤ p.length) : byteLen (p.take i) = i := by
  rw [asciiPath_byteLen (asciiPath_take hascii i), List.length_take]
  omega

/-- Splitting a node at the length of a common prefix with an ASCII path:
the retained part, the new child and its key, spelled out. -/
theorem split_at_common {T : Type} {n : RadixNode T} {p : List Char}
    (hascii : asciiPath p)
    (hsp : count_common_prefix_chars n.pfx p < byteLen n.pfx) :
    ∃ sc stail, n.pfx.drop (count_common_prefix_chars n.pfx p) = sc :: stail ∧
      n.split_at (count_common_prefix_chars n.pfx p) =
        some (.mk (n.pfx.take (count_common_prefix_chars n.pfx p))
          [(sc, .mk (sc :: stail) n.children n.exact_value n.wildcard_value)]
          none none) := by
  have htake := ccp_take_eq n.pfx p
  have hle : count_common_prefix_chars n.pfx p ≤ n.pfx.length := ccp_le_length_left _ _
  have hasc : ∀ c ∈ n.pfx.take (count_common_prefix_chars n.pfx p), charSize c = 1 := by
    intro c hc
    rw [htake] at hc
    exact hascii c (List.mem_of_mem_take hc)
  have hbt : byteTake (count_common_prefix_chars n.pfx p) n.pfx =
      some (n.pfx.take (count_common_prefix_chars n.pfx p)) :=
    byteTake_of_ascii hasc hle
  have hbd : byteDrop (count_common_prefix_chars n.pfx p) n.pfx =
      some (n.pfx.drop (count_common_prefix_chars n.pfx p)) :=
    byteDrop_of_ascii hasc hle
  have hblt : byteLen (n.pfx.take (count_common_prefix_chars n.pfx p)) =
      count_common_prefix_chars n.pfx p := by
    rw [htake]
    exact byteLen_take_ascii hascii (ccp_le_length_right _ _)
  have hbdl := byteDrop_byteLen hbd
  have hne : n.pfx.drop (count_common_prefix_chars n.pfx p) ≠ [] := by
    intro hh
    rw [hh] at hbdl
    simp [byteLen] at hbdl
    omega
  obtain ⟨sc, stail, hcr⟩ : ∃ sc stail,
      n.pfx.drop (count_common_prefix_chars n.pfx p) = sc :: stail := by
    cases hpd : n.pfx.drop (count_common_prefix_chars n.pfx p) with
    | nil => exact absurd hpd hne
    | cons a b => exact ⟨a, b, rfl⟩
  refine ⟨sc, stail, hcr, ?_⟩
  unfold RadixNode.split_at
  rw [if_neg (by omega), hbt, hbd, hcr]
  rfl

/-! ## `parse_path` and the public wrappers -/

theorem parse_path_wild (p : List Char) :
    Trie.parse_path (p ++ WILDCARD_SUFFIX) = (p, true) := by
  unfold Trie.parse_path stripSuffix
  rw [if_pos (List.suffix_append p WILDCARD_SUFFIX)]
  have hlen : (p ++ WILDCARD_SUFFIX).length - WILDCARD_SUFFIX.length = p.length := by
    simp [WILDCARD_SUFFIX]
  rw [hlen]
  have : (p ++ WILDCARD_SUFFIX).take p.length = p := List.take_left p WILDCARD_SUFFIX
  rw [this]

theorem parse_path_not_wild {p : List Char} (h : ¬ WILDCARD_SUFFIX <:+ p) :
    Trie.parse_path p = (p, false) := by
  unfold Trie.parse_path stripSuffix
  rw [if_neg h]

theorem Trie.insert_def {T : Type} (t : Trie T) (path : List Char) (v : T) :
    Trie.insert t path v =
      (t.root.insert (Trie.parse_path path).1 v (Trie.parse_path path).2).map Trie.mk := by
  unfold Trie.insert
  rcases hpp : Trie.parse_path path with ⟨clean, w⟩
  simp [hpp]

theorem Trie.remove_def {T : Type} (t : Trie T) (path : List Char) :
    Trie.remove t path =
      ((t.root.remove (Trie.parse_path path).1 (Trie.parse_path path).2).1,
        ⟨(t.root.remove (Trie.parse_path path).1 (Trie.parse_path path).2).2⟩) := by
  unfold Trie.remove
  rcases hpp : Trie.parse_path path with ⟨clean, w⟩
  simp [hpp]

theorem Trie.get_def {T : Type} (t : Trie T) (path : List Char) :
    Trie.get t path = t.root.get_with_fallback path none := rfl

/-! ## Derived step rules on a node whose prefix is an ASCII prefix of the path -/

theorem gwf_step_child {T : Type} {nn s : RadixNode T} {p : List Char} {k : Nat}
    {c : Char} {rem : List Char} (fb : Option T)
    (hascii : asciiPath p) (hpfx : nn.pfx = p.take k) (hcl_le : k ≤ p.length)
    (hdrop : p.drop k = c :: rem)
    (hfc : findChild nn.children c = some s) :
    nn.get_with_fallback p fb = s.get_with_fallback (c :: rem) (nn.wildcard_value.or fb) := by
  have hpne : p ≠ [] := by
    intro hh; rw [hh] at hdrop; simp at hdrop
  have hccl : count_common_prefix_chars nn.pfx p = k := by
    rw [hpfx, ccp_take_left, ccp_self]; omega
  have hbl : byteLen nn.pfx = k := by
    rw [hpfx]; exact byteLen_take_ascii hascii hcl_le
  have hbd : byteDrop (count_common_prefix_chars nn.pfx p) p = some (c :: rem) := by
    rw [hccl, ← hdrop]
    exact byteDrop_of_ascii (fun d hd => hascii d (List.mem_of_mem_take hd)) hcl_le
  exact gwf_child fb hpne (by rw [hccl, hbl]) hbd hfc

theorem gwf_step_nochild {T : Type} {nn : RadixNode T} {p : List Char} {cl : Nat}
    {c : Char} {rem : List Char} (fb : Option T)
    (hascii : asciiPath p) (hpfx : nn.pfx = p.take cl) (hcl_le : cl ≤ p.length)
    (hdrop : p.drop cl = c :: rem)
    (hfc : findChild nn.children c = none) :
    nn.get_with_fallback p fb = nn.wildcard_value.or fb := by
  have hpne : p ≠ [] := by
    intro hh; rw [hh] at hdrop; simp at hdrop
  have hccl : count_common_prefix_chars nn.pfx p = cl := by
    rw [hpfx, ccp_take_left, ccp_self]; omega
  have hbl : byteLen nn.pfx = cl := by
    rw [hpfx]; exact byteLen_take_ascii hascii hcl_le
  have hbd : byteDrop (count_common_prefix_chars nn.pfx p) p = some (c :: rem) := by
    rw [hccl, ← hdrop]
    exact byteDrop_of_ascii (fun d hd => hascii d (List.mem_of_mem_take hd)) hcl_le
  exact gwf_nochild fb hpne (by rw [hccl, hbl]) hbd hfc

theorem gwf_step_exact {T : Type} {m : RadixNode T} {p : List Char} (fb : Option T)
    (hascii : asciiPath p) (hpne : p ≠ []) (hpfx : m.pfx = p) :
    m.get_with_fallback p fb = m.exact_value.or (m.wildcard_value.or fb) := by
  have hccl : count_common_prefix_chars m.pfx p = p.length := by rw [hpfx, ccp_self]
  have hbl : byteLen m.pfx = p.length := by rw [hpfx]; exact asciiPath_byteLen hascii
  have hbd : byteDrop (count_common_prefix_chars m.pfx p) p = some [] := by
    rw [hccl]
    rw [byteDrop_of_ascii (fun d hd => hascii d (List.mem_of_mem_take hd)) (Nat.le_refl _)]
    simp
  exact gwf_exact fb hpne (by rw [hccl, hbl]) hbd

theorem rmv_step_child {T : Type} {nn s : RadixNode T} {p : List Char} {k : Nat}
    {c : Char} {rem : List Char} (w : Bool)
    (hascii : asciiPath p) (hpfx : nn.pfx = p.take k) (hcl_le : k ≤ p.length)
    (hdrop : p.drop k = c :: rem)
    (hfc : findChild nn.children c = some s) :
    nn.remove p w = ((s.remove (c :: rem) w).1,
      .mk nn.pfx (setChild nn.children c (s.remove (c :: rem) w).2)
        nn.exact_value nn.wildcard_value) := by
  have hpne : p ≠ [] := by
    intro hh; rw [hh] at hdrop; simp at hdrop
  have hccl : count_common_prefix_chars nn.pfx p = k := by
    rw [hpfx, ccp_take_left, ccp_self]; omega
  have hbl : byteLen nn.pfx = k := by
    rw [hpfx]; exact byteLen_take_ascii hascii hcl_le
  have hbd : byteDrop (count_common_prefix_chars nn.pfx p) p = some (c :: rem) := by
    rw [hccl, ← hdrop]
    exact byteDrop_of_ascii (fun d hd => hascii d (List.mem_of_mem_take hd)) hcl_le
  exact rmv_child w hpne (by rw [hccl, hbl]) hbd hfc

theorem rmv_step_nochild {T : Type} {nn : RadixNode T} {p : List Char} {cl : Nat}
    {c : Char} {rem : List Char} (w : Bool)
    (hascii : asciiPath p) (hpfx : nn.pfx = p.take cl) (hcl_le : cl ≤ p.length)
    (hdrop : p.drop cl = c :: rem)
    (hfc : findChild nn.children c = none) :
    nn.remove p w = (none, nn) := by
  have hpne : p ≠ [] := by
    intro hh; rw [hh] at hdrop; simp at hdrop
  have hccl : count_common_prefix_chars nn.pfx p = cl := by
    rw [hpfx, ccp_take_left, ccp_self]; omega
  have hbl : byteLen nn.pfx = cl := by
    rw [hpfx]; exact byteLen_take_ascii hascii hcl_le
  have hbd : byteDrop (count_common_prefix_chars nn.pfx p) p = some (c :: rem) := by
    rw [hccl, ← hdrop]
    exact byteDrop_of_ascii (fun d hd => hascii d (List.mem_of_mem_take hd)) hcl_le
  exact rmv_nochild w hpne (by rw [hccl, hbl]) hbd hfc

theorem rmv_step_exact {T : Type} {m : RadixNode T} {p : List Char} (w : Bool)
    (hascii : asciiPath p) (hpne : p ≠ []) (hpfx : m.pfx = p) :
    m.remove p w = m.take_value w := by
  have hccl : count_common_prefix_chars m.pfx p = p.length := by rw [hpfx, ccp_self]
  have hbl : byteLen m.pfx = p.length := by rw [hpfx]; exact asciiPath_byteLen hascii
  have hbd : byteDrop (count_common_prefix_chars m.pfx p) p = some [] := by
    rw [hccl]
    rw [byteDrop_of_ascii (fun d hd => hascii d (List.mem_of_mem_take hd)) (Nat.le_refl _)]
    simp
  exact rmv_exact w hpne (by rw [hccl, hbl]) hbd

/-! ## Round-trip: insert followed by lookup / removal at the same key -/

/-- An exact insert at an ASCII path is found again by lookup, whatever the
initial tree and whatever fallback the lookup carries. -/
theorem insertAux_get_exact {T : Type} {f : Nat} {n n' : RadixNode T} {p : List Char} {v : T}
    (hascii : asciiPath p)
    (h : insertAux f n p v false = some n') :
    ∀ fb, n'.get_with_fallback p fb = some v := by
  induction f generalizing n n' p with
  | zero => simp [insertAux] at h
  | succ f ih =>
    intro fb
    simp only [insertAux] at h
    by_cases hp : p.isEmpty
    · rw [if_pos hp] at h
      have hpnil : p = [] := List.isEmpty_iff.mp hp
      subst hpnil
      have hn' : n' = n.store_value v false := (Option.some.inj h).symm
      subst hn'
      rw [gwf_nil, store_value_false]
      simp [Option.or_some]
    · rw [if_neg hp] at h
      have hpne : p ≠ [] := fun hh => by simp [hh] at hp
      have hclr : count_common_prefix_chars n.pfx p ≤ p.length := ccp_le_length_right _ _
      have hbp : byteLen p = p.length := asciiPath_byteLen hascii
      have htake := ccp_take_eq n.pfx p
      obtain ⟨n1, hsome1, hn1pfx⟩ : ∃ n1,
          (if count_common_prefix_chars n.pfx p < byteLen n.pfx
            then n.split_at (count_common_prefix_chars n.pfx p) else some n) = some n1 ∧
          n1.pfx = p.take (count_common_prefix_chars n.pfx p) := by
        by_cases hsp : count_common_prefix_chars n.pfx p < byteLen n.pfx
        · obtain ⟨sc, stail, hdrop, hsplit⟩ := split_at_common hascii hsp
          rw [if_pos hsp, hsplit]
          exact ⟨_, rfl, by simp [htake]⟩
        · rw [if_neg hsp]
          refine ⟨n, rfl, ?_⟩
          have h1 := ccp_le_length_left n.pfx p
          have h2 := length_le_byteLen n.pfx
          have h3 : count_common_prefix_chars n.pfx p = n.pfx.length := by omega
          rw [← htake, h3, List.take_length]
      rw [hsome1] at h
      simp only [Option.some_bind] at h
      by_cases hlen : count_common_prefix_chars n.pfx p < byteLen p
      · rw [if_pos hlen] at h
        have hbd : byteDrop (count_common_prefix_chars n.pfx p) p =
            some (p.drop (count_common_prefix_chars n.pfx p)) :=
          byteDrop_of_ascii (fun d hd => hascii d (List.mem_of_mem_take hd)) (by omega)
        rw [hbd] at h
        simp only [Option.some_bind] at h
        obtain ⟨c, rem, hcr⟩ : ∃ c rem,
            p.drop (count_common_prefix_chars n.pfx p) = c :: rem := by
          cases hpd : p.drop (count_common_prefix_chars n.pfx p) with
          | nil =>
            have := congrArg List.length hpd
            simp [List.length_drop] at this
            omega
          | cons a b => exact ⟨a, b, rfl⟩
        rw [hcr] at h
        simp only at h
        cases hrec : insertAux f ((findChild n1.children c).getD (RadixNode.new (c :: rem)))
            (c :: rem) v false with
        | none => rw [hrec] at h; simp at h
        | some ch =>
          rw [hrec] at h
          simp only [Option.map_some'] at h
          have hn' : n' = .mk n1.pfx (setChild n1.children c ch)
              n1.exact_value n1.wildcard_value := (Option.some.inj h).symm
          subst hn'
          have hreme : asciiPath (c :: rem) := by
            rw [← hcr]; exact asciiPath_drop hascii _
          have hget := ih hreme hrec
          rw [gwf_step_child (s := ch) (k := count_common_prefix_chars n.pfx p) fb hascii
            (by simp [hn1pfx]) (by omega) hcr (by simp [findChild_setChild_self])]
          exact hget _
      · rw [if_neg hlen] at h
        have hcl_eq : count_common_prefix_chars n.pfx p = p.length := by omega
        have hn1p : n1.pfx = p := by rw [hn1pfx, hcl_eq, List.take_length]
        have hn' : n' = n1.store_value v false := (Option.some.inj h).symm
        subst hn'
        rw [gwf_step_exact fb hascii hpne (by simp [store_value_false, hn1p])]
        rw [store_value_false]
        simp [Option.or_some]

/-- An insert at an ASCII path (wildcard or exact) is given back by a
removal at the same path and flag, whatever the initial tree. -/
theorem insertAux_remove_back {T : Type} {f : Nat} {n n' : RadixNode T} {p : List Char}
    {v : T} {w : Bool} (hascii : asciiPath p)
    (h : insertAux f n p v w = some n') :
    (n'.remove p w).1 = some v := by
  induction f generalizing n n' p with
  | zero => simp [insertAux] at h
  | succ f ih =>
    simp only [insertAux] at h
    by_cases hp : p.isEmpty
    · rw [if_pos hp] at h
      have hpnil : p = [] := List.isEmpty_iff.mp hp
      subst hpnil
      have hn' : n' = n.store_value v w := (Option.some.inj h).symm
      subst hn'
      rw [rmv_nil, take_value_cases, store_value_cases]
      cases w <;> simp
    · rw [if_neg hp] at h
      have hpne : p ≠ [] := fun hh => by simp [hh] at hp
      have hclr : count_common_prefix_chars n.pfx p ≤ p.length := ccp_le_length_right _ _
      have hbp : byteLen p = p.length := asciiPath_byteLen hascii
      have htake := ccp_take_eq n.pfx p
      obtain ⟨n1, hsome1, hn1pfx⟩ : ∃ n1,
          (if count_common_prefix_chars n.pfx p < byteLen n.pfx
            then n.split_at (count_common_prefix_chars n.pfx p) else some n) = some n1 ∧
          n1.pfx = p.take (count_common_prefix_chars n.pfx p) := by
        by_cases hsp : count_common_prefix_chars n.pfx p < byteLen n.pfx
        · obtain ⟨sc, stail, hdrop, hsplit⟩ := split_at_common hascii hsp
          rw [if_pos hsp, hsplit]
          exact ⟨_, rfl, by simp [htake]⟩
        · rw [if_neg hsp]
          refine ⟨n, rfl, ?_⟩
          have h1 := ccp_le_length_left n.pfx p
          have h2 := length_le_byteLen n.pfx
          have h3 : count_common_prefix_chars n.pfx p = n.pfx.length := by omega
          rw [← htake, h3, List.take_length]
      rw [hsome1] at h
      simp only [Option.some_bind] at h
      by_cases hlen : count_common_prefix_chars n.pfx p < byteLen p
      · rw [if_pos hlen] at h
        have hbd : byteDrop (count_common_prefix_chars n.pfx p) p =
            some (p.drop (count_common_prefix_chars n.pfx p)) :=
          byteDrop_of_ascii (fun d hd => hascii d (List.mem_of_mem_take hd)) (by omega)
        rw [hbd] at h
        simp only [Option.some_bind] at h
        obtain ⟨c, rem, hcr⟩ : ∃ c rem,
            p.drop (count_common_prefix_chars n.pfx p) = c :: rem := by
          cases hpd : p.drop (count_common_prefix_chars n.pfx p) with
          | nil =>
            have := congrArg List.length hpd
            simp [List.length_drop] at this
            omega
          | cons a b => exact ⟨a, b, rfl⟩
        rw [hcr] at h
        simp only at h
        cases hrec : insertAux f ((findChild n1.children c).getD (RadixNode.new (c :: rem)))
            (c :: rem) v w with
        | none => rw [hrec] at h; simp at h
        | some ch =>
          rw [hrec] at h
          simp only [Option.map_some'] at h
          have hn' : n' = .mk n1.pfx (setChild n1.children c ch)
              n1.exact_value n1.wildcard_value := (Option.some.inj h).symm
          subst hn'
          have hreme : asciiPath (c :: rem) := by
            rw [← hcr]; exact asciiPath_drop hascii _
          have hget := ih hreme hrec
          rw [rmv_step_child (s := ch) (k := count_common_prefix_chars n.pfx p) w hascii
            (by simp [hn1pfx]) (by omega) hcr (by simp [findChild_setChild_self])]
          exact hget
      · rw [if_neg hlen] at h
        have hcl_eq : count_common_prefix_chars n.pfx p = p.length := by omega
        have hn1p : n1.pfx = p := by rw [hn1pfx, hcl_eq, List.take_length]
        have hn' : n' = n1.store_value v w := (Option.some.inj h).symm
        subst hn'
        rw [rmv_step_exact w hascii hpne (by simp [store_value_cases, hn1p])]
        rw [take_value_cases, store_value_cases]
        cases w <;> simp

/-! ## Removal: a miss changes nothing; a second removal finds nothing -/

theorem removeAux_unchanged {T : Type} {f : Nat} {n n2 : RadixNode T} {path : List Char}
    {w : Bool} (h : removeAux f n path w = some (none, n2)) : n2 = n := by
  induction f generalizing n n2 path w with
  | zero => simp [removeAux] at h
  | succ f ih =>
    simp only [removeAux] at h
    by_cases hp : path.isEmpty
    · rw [if_pos hp] at h
      cases w
      · rw [take_value_false] at h
        have h2 := Option.some.inj h
        rw [Prod.mk.injEq] at h2
        obtain ⟨hev, hn2⟩ := h2
        rw [← hn2, ← hev, RadixNode.eta]
      · rw [take_value_true] at h
        have h2 := Option.some.inj h
        rw [Prod.mk.injEq] at h2
        obtain ⟨hwv, hn2⟩ := h2
        rw [← hn2, ← hwv, RadixNode.eta]
    · rw [if_neg hp] at h
      by_cases hcl : count_common_prefix_chars n.pfx path = byteLen n.pfx
      · rw [if_pos hcl] at h
        cases hbd : byteDrop (count_common_prefix_chars n.pfx path) path with
        | none =>
          rw [hbd] at h
          have h2 := Option.some.inj h
          rw [Prod.mk.injEq] at h2
          exact h2.2.symm
        | some remaining =>
          rw [hbd] at h
          cases remaining with
          | nil =>
            simp only at h
            cases w
            · rw [take_value_false] at h
              have h2 := Option.some.inj h
              rw [Prod.mk.injEq] at h2
              obtain ⟨hev, hn2⟩ := h2
              rw [← hn2, ← hev, RadixNode.eta]
            · rw [take_value_true] at h
              have h2 := Option.some.inj h
              rw [Prod.mk.injEq] at h2
              obtain ⟨hwv, hn2⟩ := h2
              rw [← hn2, ← hwv, RadixNode.eta]
          | cons c rem =>
            simp only at h
            cases hfc : findChild n.children c with
            | none =>
              rw [hfc] at h
              have h2 := Option.some.inj h
              rw [Prod.mk.injEq] at h2
              exact h2.2.symm
            | some child =>
              rw [hfc] at h
              simp only at h
              cases hrec : removeAux f child (c :: rem) w with
              | none => rw [hrec] at h; simp at h
              | some pr =>
                rw [hrec] at h
                simp only [Option.map_some'] at h
                have h2 := Option.some.inj h
                rw [Prod.mk.injEq] at h2
                obtain ⟨hr1, hn2⟩ := h2
                obtain ⟨r0, ch2⟩ := pr
                simp only at hr1 hn2
                rw [hr1] at hrec
                have hch : ch2 = child := ih hrec
                rw [← hn2, hch, setChild_found_eq hfc, RadixNode.eta]
      · rw [if_neg hcl] at h
        have h2 := Option.some.inj h
        rw [Prod.mk.injEq] at h2
        exact h2.2.symm

theorem removeAux_removed_none {T : Type} {f g : Nat} {n n2 : RadixNode T}
    {path : List Char} {w : Bool} {val : T} {pr : Option T × RadixNode T}
    (h1 : removeAux f n path w = some (some val, n2))
    (h2 : removeAux g n2 path w = some pr) : pr.1 = none := by
  induction f generalizing g n n2 path w pr with
  | zero => simp [removeAux] at h1
  | succ f ih =>
    obtain ⟨g', rfl⟩ : ∃ g', g = g' + 1 := by
      cases g with
      | zero => simp [removeAux] at h2
      | succ g' => exact ⟨g', rfl⟩
    simp only [removeAux] at h1 h2
    by_cases hp : path.isEmpty
    · rw [if_pos hp] at h1 h2
      cases w
      · rw [take_value_false] at h1
        have e1 := Option.some.inj h1
        rw [Prod.mk.injEq] at e1
        obtain ⟨hev, hn2⟩ := e1
        rw [← hn2, take_value_false] at h2
        have e2 := Option.some.inj h2
        rw [← e2]
        simp
      · rw [take_value_true] at h1
        have e1 := Option.some.inj h1
        rw [Prod.mk.injEq] at e1
        obtain ⟨hwv, hn2⟩ := e1
        rw [← hn2, take_value_true] at h2
        have e2 := Option.some.inj h2
        rw [← e2]
        simp
    · rw [if_neg hp] at h1 h2
      by_cases hcl : count_common_prefix_chars n.pfx path = byteLen n.pfx
      · rw [if_pos hcl] at h1
        cases hbd : byteDrop (count_common_prefix_chars n.pfx path) path with
        | none =>
          rw [hbd] at h1
          simp at h1
        | some remaining =>
          rw [hbd] at h1
          cases remaining with
          | nil =>
            simp only at h1
            cases w
            · rw [take_value_false] at h1
              have e1 := Option.some.inj h1
              rw [Prod.mk.injEq] at e1
              obtain ⟨hev, hn2⟩ := e1
              rw [← hn2] at h2
              simp only [RadixNode.pfx_mk] at h2
              rw [if_pos hcl, hbd] at h2
              simp only at h2
              rw [take_value_false] at h2
              have e2 := Option.some.inj h2
              rw [← e2]
              simp
            · rw [take_value_true] at h1
              have e1 := Option.some.inj h1
              rw [Prod.mk.injEq] at e1
              obtain ⟨hwv, hn2⟩ := e1
              rw [← hn2] at h2
              simp only [RadixNode.pfx_mk] at h2
              rw [if_pos hcl, hbd] at h2
              simp only at h2
              rw [take_value_true] at h2
              have e2 := Option.some.inj h2
              rw [← e2]
              simp
          | cons c rem =>
            simp only at h1
            cases hfc : findChild n.children c with
            | none =>
              rw [hfc] at h1
              simp at h1
            | some child =>
              rw [hfc] at h1
              simp only at h1
              cases hrec : removeAux f child (c :: rem) w with
              | none => rw [hrec] at h1; simp at h1
              | some pr1 =>
                rw [hrec] at h1
                simp only [Option.map_some'] at h1
                obtain ⟨r1, ch2⟩ := pr1
                have e1 := Option.some.inj h1
                rw [Prod.mk.injEq] at e1
                obtain ⟨hr1, hn2⟩ := e1
                simp only at hr1 hn2
                rw [hr1] at hrec
                rw [← hn2] at h2
                simp only [RadixNode.pfx_mk, RadixNode.children_mk] at h2
                rw [if_pos hcl, hbd] at h2
                simp only at h2
                rw [findChild_setChild_self] at h2
                simp only at h2
                cases hrec2 : removeAux g' ch2 (c :: rem) w with
                | none => rw [hrec2] at h2; simp at h2
                | some pr2 =>
                  rw [hrec2] at h2
                  simp only [Option.map_some'] at h2
                  have e2 := Option.some.inj h2
                  rw [← e2]
                  simp only
                  exact ih hrec hrec2
      · rw [if_neg hcl] at h1
        simp at h1

/-! ## More prefix and slicing facts -/

theorem byteLen_append (a b : List Char) : byteLen (a ++ b) = byteLen a + byteLen b := by
  induction a with
  | nil => simp [byteLen]
  | cons c cs ih =>
    simp only [List.cons_append]
    show charSize c + byteLen (cs ++ b) = charSize c + byteLen cs + byteLen b
    rw [ih]
    omega

theorem take_eq_of_le_ccp {k : Nat} {a b : List Char}
    (h : k ≤ count_common_prefix_chars a b) : a.take k = b.take k := by
  induction k generalizing a b with
  | zero => simp
  | succ j ih =>
    cases a with
    | nil => simp [ccp_nil_left] at h
    | cons x a =>
      cases b with
      | nil => simp [ccp_nil_right] at h
      | cons y b =>
        rw [ccp_cons] at h
        by_cases hxy : x = y
        · rw [if_pos hxy] at h
          subst hxy
          simp only [List.take_succ_cons]
          have hj := ih (a := a) (b := b) (by omega)
          rw [hj]
        · rw [if_neg hxy] at h; omega

theorem ccp_succ_of_heads_eq {k : Nat} {a b : List Char} {x : Char} {a2 b2 : List Char}
    (hk : k ≤ count_common_prefix_chars a b)
    (ha : a.drop k = x :: a2) (hb : b.drop k = x :: b2) :
    k + 1 ≤ count_common_prefix_chars a b := by
  by_contra hcon
  have hkk : count_common_prefix_chars a b = k := by omega
  have := ccp_drop (k := k) (a := a) (b := b) (by omega)
  rw [ha, hb, hkk] at this
  simp [ccp_cons] at this

theorem ccp_eq_of_heads_ne {k : Nat} {a b : List Char} {x y : Char} {a2 b2 : List Char}
    (hk : k ≤ count_common_prefix_chars a b)
    (ha : a.drop k = x :: a2) (hb : b.drop k = y :: b2) (hxy : x ≠ y) :
    count_common_prefix_chars a b = k := by
  by_contra hcon
  have hk1 : k + 1 ≤ count_common_prefix_chars a b := by omega
  have := ccp_drop (k := k) (a := a) (b := b) (by omega)
  rw [ha, hb, ccp_cons, if_neg hxy] at this
  omega

theorem gwf_slice_none {T : Type} {n : RadixNode T} {path : List Char} (fb : Option T)
    (hp : path ≠ [])
    (hcl : count_common_prefix_chars n.pfx path = byteLen n.pfx)
    (hbd : byteDrop (count_common_prefix_chars n.pfx path) path = none) :
    n.get_with_fallback path fb = none := by
  apply get_wf_of_getAux (f := 1)
  rw [hcl] at hbd
  simp [getAux, isEmpty_false_of_ne hp, hcl, hbd]

theorem rmv_slice_none {T : Type} {n : RadixNode T} {path : List Char} (w : Bool)
    (hp : path ≠ [])
    (hcl : count_common_prefix_chars n.pfx path = byteLen n.pfx)
    (hbd : byteDrop (count_common_prefix_chars n.pfx path) path = none) :
    n.remove path w = (none, n) := by
  apply remove_of_removeAux (f := 1)
  rw [hcl] at hbd
  simp [removeAux, isEmpty_false_of_ne hp, hcl, hbd]

/-- Removing anything from a fresh value-free leaf yields nothing. -/
theorem remove_new_none {T : Type} (s path : List Char) (w : Bool) :
    ((RadixNode.new (T := T) s).remove path w).1 = none := by
  cases hp : path with
  | nil =>
    rw [rmv_nil, take_value_cases]
    cases w <;> simp [RadixNode.new]
  | cons c rest =>
    by_cases hcl : count_common_prefix_chars (RadixNode.new (T := T) s).pfx (c :: rest) =
        byteLen (RadixNode.new (T := T) s).pfx
    · cases hbd : byteDrop (count_common_prefix_chars (RadixNode.new (T := T) s).pfx
          (c :: rest)) (c :: rest) with
      | none => rw [rmv_slice_none w (by simp) hcl hbd]
      | some remaining =>
        cases remaining with
        | nil =>
          rw [rmv_exact w (by simp) hcl hbd, take_value_cases]
          cases w <;> simp [RadixNode.new]
        | cons d rest2 =>
          have hfc : findChild (RadixNode.new (T := T) s).children d = none := by
            simp [RadixNode.new, findChild]
          rw [rmv_nochild w (by simp) hcl hbd hfc]
    · rw [rmv_diverge w (by simp) hcl]

/-- Chopping the first `k` (commonly shared, single-byte) characters off both a
node's prefix and the query path does not change what a removal returns. -/
theorem remove_fst_drop {T : Type} {n : RadixNode T} {q : List Char} {k : Nat} (w : Bool)
    (hasciiQ : asciiPath q)
    (hkcc : k ≤ count_common_prefix_chars n.pfx q)
    (hqk : q.drop k ≠ []) :
    ((RadixNode.mk (n.pfx.drop k) n.children n.exact_value n.wildcard_value).remove
        (q.drop k) w).1 = (n.remove q w).1 := by
  have hqne : q ≠ [] := by
    intro hh; rw [hh] at hqk; simp at hqk
  have hdqr : count_common_prefix_chars n.pfx q ≤ q.length := ccp_le_length_right _ _
  have hdql : count_common_prefix_chars n.pfx q ≤ n.pfx.length := ccp_le_length_left _ _
  have hkq : k ≤ q.length := by omega
  have hkp : k ≤ n.pfx.length := by omega
  have htk : n.pfx.take k = q.take k := take_eq_of_le_ccp hkcc
  have hasciiTk : ∀ c ∈ n.pfx.take k, charSize c = 1 := by
    intro c hc; rw [htk] at hc; exact hasciiQ c (List.mem_of_mem_take hc)
  have hblk : byteLen (n.pfx.take k) = k := by
    rw [htk]; exact byteLen_take_ascii hasciiQ hkq
  have hsplit_p : byteLen n.pfx = k + byteLen (n.pfx.drop k) := by
    have := byteLen_append (n.pfx.take k) (n.pfx.drop k)
    rw [List.take_append_drop] at this
    omega
  have hccd : count_common_prefix_chars (n.pfx.drop k) (q.drop k) =
      count_common_prefix_chars n.pfx q - k := ccp_drop hkcc
  by_cases hdq : count_common_prefix_chars n.pfx q = byteLen n.pfx
  · -- both sides fully match their prefixes
    have hdq2 : count_common_prefix_chars (n.pfx.drop k) (q.drop k) =
        byteLen (n.pfx.drop k) := by omega
    have hbdq : byteDrop (count_common_prefix_chars n.pfx q) q =
        some (q.drop (count_common_prefix_chars n.pfx q)) :=
      byteDrop_of_ascii (fun d hd => hasciiQ d (List.mem_of_mem_take hd)) (by omega)
    have hbdq2 : byteDrop (count_common_prefix_chars (n.pfx.drop k) (q.drop k)) (q.drop k) =
        some (q.drop (count_common_prefix_chars n.pfx q)) := by
      rw [hccd]
      have hi : count_common_prefix_chars n.pfx q - k ≤ (q.drop k).length := by
        rw [List.length_drop]
        omega
      rw [byteDrop_of_ascii (fun d hd => (asciiPath_drop hasciiQ k) d (List.mem_of_mem_take hd)) hi]
      rw [List.drop_drop]
      have hkk : k + (count_common_prefix_chars n.pfx q - k) = count_common_prefix_chars n.pfx q := by
        omega
      rw [hkk]
    cases hrem : q.drop (count_common_prefix_chars n.pfx q) with
    | nil =>
      rw [hrem] at hbdq hbdq2
      rw [rmv_exact w hqne hdq hbdq]
      rw [rmv_exact w hqk (by simpa using hdq2) (by simpa using hbdq2)]
      rw [take_value_cases, take_value_cases]
      cases w <;> simp
    | cons hq qrest =>
      rw [hrem] at hbdq hbdq2
      cases hfc : findChild n.children hq with
      | none =>
        rw [rmv_nochild w hqne hdq hbdq hfc]
        rw [rmv_nochild w hqk (by simpa using hdq2) (by simpa using hbdq2) (by simpa using hfc)]
      | some child =>
        rw [rmv_child w hqne hdq hbdq hfc]
        rw [rmv_child w hqk (by simpa using hdq2) (by simpa using hbdq2) (by simpa using hfc)]
  · have hdq2 : count_common_prefix_chars (n.pfx.drop k) (q.drop k) ≠
        byteLen (n.pfx.drop k) := by omega
    rw [rmv_diverge w hqne hdq, rmv_diverge w hqk (by simpa using hdq2)]

/-- Removal looks at a node only through its prefix, its children and (when
the query ends exactly here) the addressed value slot; two nodes agreeing on
those parts yield the same removal result. -/
theorem remove_fst_congr {T : Type} {n m : RadixNode T} {q : List Char} (w' : Bool)
    (hpfx : m.pfx = n.pfx) (hch : m.children = n.children)
    (hok : ((if w' then m.wildcard_value else m.exact_value) =
            (if w' then n.wildcard_value else n.exact_value)) ∨
           (q ≠ [] ∧ ¬ (count_common_prefix_chars n.pfx q = byteLen n.pfx ∧
              byteDrop (count_common_prefix_chars n.pfx q) q = some []))) :
    (m.remove q w').1 = (n.remove q w').1 := by
  cases q with
  | nil =>
    have hslot : (if w' then m.wildcard_value else m.exact_value) =
        (if w' then n.wildcard_value else n.exact_value) := by
      rcases hok with hsl | hne
      · exact hsl
      · exact absurd rfl hne.1
    rw [rmv_nil, rmv_nil, take_value_cases, take_value_cases]
    cases w' <;> simpa using hslot
  | cons cq qrest =>
    by_cases hcl : count_common_prefix_chars n.pfx (cq :: qrest) = byteLen n.pfx
    · cases hbd : byteDrop (count_common_prefix_chars n.pfx (cq :: qrest)) (cq :: qrest) with
      | none =>
        rw [rmv_slice_none w' (by simp) hcl hbd]
        rw [rmv_slice_none w' (by simp) (by rw [hpfx, hcl]) (by rw [hpfx]; exact hbd)]
      | some remaining =>
        cases remaining with
        | nil =>
          have hslot : (if w' then m.wildcard_value else m.exact_value) =
              (if w' then n.wildcard_value else n.exact_value) := by
            rcases hok with hsl | hne
            · exact hsl
            · exact absurd ⟨hcl, hbd⟩ hne.2
          rw [rmv_exact w' (by simp) hcl hbd]
          rw [rmv_exact w' (by simp) (by rw [hpfx, hcl]) (by rw [hpfx]; exact hbd)]
          rw [take_value_cases, take_value_cases]
          cases w' <;> simpa using hslot
        | cons d r2 =>
          cases hfc : findChild n.children d with
          | none =>
            rw [rmv_nochild w' (by simp) hcl hbd hfc]
            rw [rmv_nochild w' (by simp) (by rw [hpfx, hcl]) (by rw [hpfx]; exact hbd)
              (by rw [hch]; exact hfc)]
          | some child =>
            rw [rmv_child w' (by simp) hcl hbd hfc]
            rw [rmv_child w' (by simp) (by rw [hpfx, hcl]) (by rw [hpfx]; exact hbd)
              (by rw [hch]; exact hfc)]
    · rw [rmv_diverge w' (by simp) hcl]
      rw [rmv_diverge w' (by simp) (by rw [hpfx]; exact hcl)]

/-- Frame case: the insert stored its value at this very node (no split);
removals at any other (path, flag) key are unaffected. -/
theorem store_frame_nosplit {T : Type} {n : RadixNode T} {p q : List Char} {v : T}
    {w w' : Bool}
    (hasciiP : asciiPath p) (hasciiQ : asciiPath q)
    (hpfx : n.pfx = p) (hqne : q ≠ [])
    (hkey : p ≠ q ∨ w ≠ w') :
    ((n.store_value v w).remove q w').1 = (n.remove q w').1 := by
  apply remove_fst_congr w' (by simp [store_value_cases]) (by simp [store_value_cases])
  by_cases hww : w = w'
  · subst hww
    have hpq : p ≠ q := by
      rcases hkey with hk | hk
      · exact hk
      · exact absurd rfl hk
    refine Or.inr ⟨hqne, ?_⟩
    rintro ⟨hcl, hbd⟩
    have hbl := byteDrop_byteLen hbd
    simp only [byteLen] at hbl
    have hblp : byteLen n.pfx = p.length := by rw [hpfx]; exact asciiPath_byteLen hasciiP
    have hblq : byteLen q = q.length := asciiPath_byteLen hasciiQ
    have hcql : count_common_prefix_chars n.pfx q = q.length := by omega
    have hcpl : count_common_prefix_chars n.pfx q = p.length := by omega
    have htt := take_eq_of_le_ccp (k := count_common_prefix_chars n.pfx q)
      (a := n.pfx) (b := q) (Nat.le_refl _)
    rw [hcpl] at htt
    rw [hpfx, List.take_length] at htt
    rw [show p.length = q.length by omega, List.take_length] at htt
    exact hpq htt
  · left
    rw [store_value_cases]
    cases w <;> cases w' <;> simp_all

/-- Frame case: the insert split this node and stored its value on the
retained upper part; removals at any other key are unaffected. -/
theorem store_frame_split {T : Type} {n : RadixNode T} {p q : List Char} {v : T}
    {w w' : Bool} {sc : Char} {stail : List Char}
    (hasciiP : asciiPath p) (hasciiQ : asciiPath q)
    (hqne : q ≠ [])
    (hkey : p ≠ q ∨ w ≠ w')
    (hsp : count_common_prefix_chars n.pfx p < byteLen n.pfx)
    (hdropfx : n.pfx.drop (count_common_prefix_chars n.pfx p) = sc :: stail)
    (hclp : count_common_prefix_chars n.pfx p = p.length) :
    (((RadixNode.mk (n.pfx.take (count_common_prefix_chars n.pfx p))
        [(sc, RadixNode.mk (sc :: stail) n.children n.exact_value n.wildcard_value)]
        none none).store_value v w).remove q w').1 = (n.remove q w').1 := by
  rw [store_value_cases]
  simp only [RadixNode.pfx_mk, RadixNode.children_mk, RadixNode.exact_value_mk,
    RadixNode.wildcard_value_mk]
  have hclr : count_common_prefix_chars n.pfx p ≤ p.length := ccp_le_length_right _ _
  have htkp : n.pfx.take (count_common_prefix_chars n.pfx p) =
      p.take (count_common_prefix_chars n.pfx p) := ccp_take_eq _ _
  have hpfx2 : n.pfx.take (count_common_prefix_chars n.pfx p) = p := by
    rw [htkp, hclp, List.take_length]
  have hdql : count_common_prefix_chars n.pfx q ≤ q.length := ccp_le_length_right _ _
  have hbl2 : byteLen (n.pfx.take (count_common_prefix_chars n.pfx p)) =
      count_common_prefix_chars n.pfx p := by
    rw [htkp]
    exact byteLen_take_ascii hasciiP hclr
  have hccpq : count_common_prefix_chars
      (n.pfx.take (count_common_prefix_chars n.pfx p)) q =
      min (count_common_prefix_chars n.pfx p) (count_common_prefix_chars n.pfx q) :=
    ccp_take_left _ _ _
  by_cases hlt : count_common_prefix_chars n.pfx q < count_common_prefix_chars n.pfx p
  · rw [rmv_diverge w' hqne (by simp only [RadixNode.pfx_mk]; rw [hccpq, hbl2]; omega)]
    rw [rmv_diverge w' hqne (by omega)]
  · have hge : count_common_prefix_chars n.pfx p ≤ count_common_prefix_chars n.pfx q := by
      omega
    have hclq : count_common_prefix_chars n.pfx p ≤ q.length := by omega
    have hccl2 : count_common_prefix_chars
        (n.pfx.take (count_common_prefix_chars n.pfx p)) q =
        count_common_prefix_chars n.pfx p := by rw [hccpq]; omega
    have hbd2 : byteDrop (count_common_prefix_chars n.pfx p) q =
        some (q.drop (count_common_prefix_chars n.pfx p)) :=
      byteDrop_of_ascii (fun d hd => hasciiQ d (List.mem_of_mem_take hd)) hclq
    cases hqd : q.drop (count_common_prefix_chars n.pfx p) with
    | nil =>
      have hqlen : q.length = count_common_prefix_chars n.pfx p := by
        have := congrArg List.length hqd
        simp only [List.length_drop, List.length_nil] at this
        omega
      have hqp : q = p := by
        have h1 : n.pfx.take (count_common_prefix_chars n.pfx p) =
            q.take (count_common_prefix_chars n.pfx p) := take_eq_of_le_ccp hge
        rw [hpfx2] at h1
        rw [← hqlen, List.take_length] at h1
        exact h1.symm
      have hww : w ≠ w' := by
        rcases hkey with hk | hk
        · exact absurd hqp.symm hk
        · exact hk
      rw [rmv_exact w' hqne (by simp only [RadixNode.pfx_mk]; rw [hccl2, hbl2])
        (by simp only [RadixNode.pfx_mk]; rw [hccl2, hbd2, hqd])]
      rw [rmv_diverge w' hqne (by omega)]
      rw [take_value_cases]
      simp only [RadixNode.exact_value_mk, RadixNode.wildcard_value_mk]
      cases w <;> cases w' <;> simp_all
    | cons hq2 qr2 =>
      by_cases hsc : hq2 = sc
      · subst hsc
        have hfc : findChild [(hq2, RadixNode.mk (hq2 :: stail) n.children
            n.exact_value n.wildcard_value)] hq2 =
            some (RadixNode.mk (hq2 :: stail) n.children n.exact_value n.wildcard_value) := by
          simp [findChild]
        rw [rmv_child w' hqne (by simp only [RadixNode.pfx_mk]; rw [hccl2, hbl2])
          (by simp only [RadixNode.pfx_mk]; rw [hccl2, hbd2, hqd])
          (by simp only [RadixNode.children_mk]; exact hfc)]
        have hshift := remove_fst_drop (n := n) (q := q)
          (k := count_common_prefix_chars n.pfx p) w' hasciiQ hge (by rw [hqd]; simp)
        rw [hdropfx, hqd] at hshift
        simpa using hshift
      · have hfc : findChild [(sc, RadixNode.mk (sc :: stail) n.children
            n.exact_value n.wildcard_value)] hq2 = none := by
          simp only [findChild]
          rw [if_neg (fun hh => hsc (Eq.symm hh))]
        rw [rmv_nochild w' hqne (by simp only [RadixNode.pfx_mk]; rw [hccl2, hbl2])
          (by simp only [RadixNode.pfx_mk]; rw [hccl2, hbd2, hqd])
          (by simp only [RadixNode.children_mk]; exact hfc)]
        have hdq2 : count_common_prefix_chars n.pfx q = count_common_prefix_chars n.pfx p :=
          ccp_eq_of_heads_ne hge hdropfx hqd (fun hh => hsc hh.symm)
        rw [rmv_diverge w' hqne (by omega)]

/-- Frame property: an insert at one ASCII key does not change what a removal
at any other ASCII key returns.  `hroot` records that either the node is a
root (empty prefix) or both paths are nonempty, as holds in every reachable
call. -/
theorem insertAux_remove_frame {T : Type} {f : Nat} {n n' : RadixNode T} {p q : List Char}
    {v : T} {w w' : Bool}
    (hasciiP : asciiPath p) (hasciiQ : asciiPath q)
    (hroot : n.pfx = [] ∨ (p ≠ [] ∧ q ≠ []))
    (hkey : p ≠ q ∨ w ≠ w')
    (h : insertAux f n p v w = some n') :
    (n'.remove q w').1 = (n.remove q w').1 := by
  induction f generalizing n n' p q with
  | zero => simp [insertAux] at h
  | succ f ih =>
    simp only [insertAux] at h
    by_cases hp : p.isEmpty
    · rw [if_pos hp] at h
      have hpnil : p = [] := List.isEmpty_iff.mp hp
      subst hpnil
      have hn' : n' = n.store_value v w := (Option.some.inj h).symm
      subst hn'
      apply remove_fst_congr w' (by simp [store_value_cases]) (by simp [store_value_cases])
      by_cases hww : w = w'
      · subst hww
        have hqnil : q ≠ [] := by
          rcases hkey with hk | hk
          · intro hh; rw [hh] at hk; exact hk rfl
          · exact absurd rfl hk
        have hpfxnil : n.pfx = [] := by
          rcases hroot with h0 | h0
          · exact h0
          · exact absurd rfl h0.1
        refine Or.inr ⟨hqnil, ?_⟩
        rintro ⟨hc1, hc2⟩
        rw [hpfxnil, ccp_nil_left, byteDrop_zero] at hc2
        exact hqnil (Option.some.inj hc2)
      · left
        rw [store_value_cases]
        simp only [RadixNode.exact_value_mk, RadixNode.wildcard_value_mk]
        cases w <;> cases w' <;> simp_all
    · rw [if_neg hp] at h
      have hpne : p ≠ [] := fun hh => by simp [hh] at hp
      have hclr : count_common_prefix_chars n.pfx p ≤ p.length := ccp_le_length_right _ _
      have hbp : byteLen p = p.length := asciiPath_byteLen hasciiP
      have htake := ccp_take_eq n.pfx p
      obtain ⟨n1, hsome1, hn1pfx, hshape⟩ : ∃ n1,
          (if count_common_prefix_chars n.pfx p < byteLen n.pfx
            then n.split_at (count_common_prefix_chars n.pfx p) else some n) = some n1 ∧
          n1.pfx = p.take (count_common_prefix_chars n.pfx p) ∧
          ((n1 = n ∧ byteLen n.pfx = count_common_prefix_chars n.pfx p) ∨
           (∃ sc stail, n.pfx.drop (count_common_prefix_chars n.pfx p) = sc :: stail ∧
             count_common_prefix_chars n.pfx p < byteLen n.pfx ∧
             n1 = .mk (n.pfx.take (count_common_prefix_chars n.pfx p))
               [(sc, .mk (sc :: stail) n.children n.exact_value n.wildcard_value)]
               none none)) := by
        by_cases hsp : count_common_prefix_chars n.pfx p < byteLen n.pfx
        · obtain ⟨sc, stail, hdrop, hsplit⟩ := split_at_common hasciiP hsp
          rw [if_pos hsp, hsplit]
          exact ⟨_, rfl, by simp [htake], Or.inr ⟨sc, stail, hdrop, hsp, rfl⟩⟩
        · rw [if_neg hsp]
          have h1 := ccp_le_length_left n.pfx p
          have h2 := length_le_byteLen n.pfx
          have h3 : count_common_prefix_chars n.pfx p = n.pfx.length := by omega
          refine ⟨n, rfl, ?_, Or.inl ⟨rfl, by omega⟩⟩
          rw [← htake, h3, List.take_length]
      rw [hsome1] at h
      simp only [Option.some_bind] at h
      by_cases hlen : count_common_prefix_chars n.pfx p < byteLen p
      · -- insert descends into a child
        rw [if_pos hlen] at h
        have hbd : byteDrop (count_common_prefix_chars n.pfx p) p =
            some (p.drop (count_common_prefix_chars n.pfx p)) :=
          byteDrop_of_ascii (fun d hd => hasciiP d (List.mem_of_mem_take hd)) (by omega)
        rw [hbd] at h
        simp only [Option.some_bind] at h
        obtain ⟨c, prem, hcr⟩ : ∃ c prem,
            p.drop (count_common_prefix_chars n.pfx p) = c :: prem := by
          cases hpd : p.drop (count_common_prefix_chars n.pfx p) with
          | nil =>
            have := congrArg List.length hpd
            simp [List.length_drop] at this
            omega
          | cons a b => exact ⟨a, b, rfl⟩
        rw [hcr] at h
        simp only at h
        cases hrec : insertAux f ((findChild n1.children c).getD (RadixNode.new (c :: prem)))
            (c :: prem) v w with
        | none => rw [hrec] at h; simp at h
        | some ch =>
          rw [hrec] at h
          simp only [Option.map_some'] at h
          have hn' : n' = .mk n1.pfx (setChild n1.children c ch)
              n1.exact_value n1.wildcard_value := (Option.some.inj h).symm
          subst hn'
          have hasciiRest : asciiPath (c :: prem) := by
            rw [← hcr]; exact asciiPath_drop hasciiP _
          rcases hshape with ⟨hn1n, hbleq⟩ | ⟨sc, stail, hdropfx, hsplt, hn1eq⟩
          · -- no split: n1 = n
            rw [hn1n] at hrec hn1pfx ⊢
            cases hqcases : q with
            | nil =>
              rw [rmv_nil, rmv_nil, take_value_cases, take_value_cases]
              cases w' <;> simp
            | cons cq qrest =>
              rw [← hqcases]
              have hqne2 : q ≠ [] := by rw [hqcases]; simp
              by_cases hdq : count_common_prefix_chars n.pfx q = byteLen n.pfx
              · have hdqcl : count_common_prefix_chars n.pfx q =
                    count_common_prefix_chars n.pfx p := by omega
                have hclq : count_common_prefix_chars n.pfx p ≤ q.length := by
                  have := ccp_le_length_right n.pfx q; omega
                have hbdq : byteDrop (count_common_prefix_chars n.pfx q) q =
                    some (q.drop (count_common_prefix_chars n.pfx p)) := by
                  rw [hdqcl]
                  exact byteDrop_of_ascii (fun d hd => hasciiQ d (List.mem_of_mem_take hd)) hclq
                cases hqd : q.drop (count_common_prefix_chars n.pfx p) with
                | nil =>
                  rw [rmv_exact w' hqne2
                    (by simp only [RadixNode.pfx_mk]; exact hdq)
                    (by simp only [RadixNode.pfx_mk]; rw [hbdq, hqd])]
                  rw [rmv_exact w' hqne2 hdq (by rw [hbdq, hqd])]
                  rw [take_value_cases, take_value_cases]
                  cases w' <;> simp
                | cons hq2 qr2 =>
                  by_cases hqc : hq2 = c
                  · subst hqc
                    rw [rmv_child w' hqne2
                      (by simp only [RadixNode.pfx_mk]; exact hdq)
                      (by simp only [RadixNode.pfx_mk]; rw [hbdq, hqd])
                      (by simp only [RadixNode.children_mk]; exact findChild_setChild_self _ _ _)]
                    have hasciiQd : asciiPath (hq2 :: qr2) := by
                      rw [← hqd]; exact asciiPath_drop hasciiQ _
                    have hkey2 : (hq2 :: prem) ≠ (hq2 :: qr2) ∨ w ≠ w' := by
                      by_cases hww : w = w'
                      · left
                        have hpq : p ≠ q := by
                          rcases hkey with hk | hk
                          · exact hk
                          · rw [hww] at hk; exact absurd rfl hk
                        intro hh
                        apply hpq
                        have htkq : n.pfx.take (count_common_prefix_chars n.pfx p) =
                            q.take (count_common_prefix_chars n.pfx p) :=
                          take_eq_of_le_ccp (by omega)
                        have hpq2 : p.take (count_common_prefix_chars n.pfx p) =
                            q.take (count_common_prefix_chars n.pfx p) := by
                          rw [← htake, htkq]
                        calc p = p.take (count_common_prefix_chars n.pfx p) ++
                                  p.drop (count_common_prefix_chars n.pfx p) :=
                                (List.take_append_drop _ _).symm
                          _ = q.take (count_common_prefix_chars n.pfx p) ++
                                  q.drop (count_common_prefix_chars n.pfx p) := by
                                rw [hpq2, hcr, hqd, hh]
                          _ = q := List.take_append_drop _ _
                      · right; exact hww
                    cases hfc0 : findChild n.children hq2 with
                    | some child =>
                      rw [rmv_child w' hqne2 hdq (by rw [hbdq, hqd]) hfc0]
                      rw [hfc0] at hrec
                      simp only [Option.getD_some] at hrec
                      exact ih hasciiRest hasciiQd (Or.inr ⟨by simp, by simp⟩) hkey2 hrec
                    | none =>
                      rw [rmv_nochild w' hqne2 hdq (by rw [hbdq, hqd]) hfc0]
                      rw [hfc0] at hrec
                      simp only [Option.getD_none] at hrec
                      have happ := ih hasciiRest (by rw [← hqd]; exact asciiPath_drop hasciiQ _)
                        (Or.inr ⟨by simp, by simp⟩) hkey2 hrec
                      rw [remove_new_none] at happ
                      exact happ
                  · have hfseq : findChild (setChild n.children c ch) hq2 =
                        findChild n.children hq2 := findChild_setChild_ne _ _ hqc
                    cases hfc0 : findChild n.children hq2 with
                    | some child2 =>
                      rw [rmv_child w' hqne2
                        (by simp only [RadixNode.pfx_mk]; exact hdq)
                        (by simp only [RadixNode.pfx_mk]; rw [hbdq, hqd])
                        (by simp only [RadixNode.children_mk]; rw [hfseq]; exact hfc0)]
                      rw [rmv_child w' hqne2 hdq (by rw [hbdq, hqd]) hfc0]
                    | none =>
                      rw [rmv_nochild w' hqne2
                        (by simp only [RadixNode.pfx_mk]; exact hdq)
                        (by simp only [RadixNode.pfx_mk]; rw [hbdq, hqd])
                        (by simp only [RadixNode.children_mk]; rw [hfseq]; exact hfc0)]
                      rw [rmv_nochild w' hqne2 hdq (by rw [hbdq, hqd]) hfc0]
              · rw [rmv_diverge w' hqne2 (by simp only [RadixNode.pfx_mk]; exact hdq)]
                rw [rmv_diverge w' hqne2 hdq]
          · -- split happened
            subst hn1eq
            have hpfxne : n.pfx ≠ [] := by
              intro hh
              rw [hh] at hsplt
              simp [byteLen] at hsplt
            have hqne2 : q ≠ [] := by
              rcases hroot with h0 | h0
              · exact absurd h0 hpfxne
              · exact h0.2
            have hcsc : sc ≠ c := by
              intro hh
              have := ccp_succ_of_heads_eq (Nat.le_refl _) hdropfx (by rw [hcr, ← hh])
              omega
            simp only [RadixNode.pfx_mk, RadixNode.children_mk, RadixNode.exact_value_mk,
              RadixNode.wildcard_value_mk] at hrec ⊢
            have hbl2 : byteLen (n.pfx.take (count_common_prefix_chars n.pfx p)) =
                count_common_prefix_chars n.pfx p := by
              rw [htake]
              exact byteLen_take_ascii hasciiP hclr
            have hccpq : count_common_prefix_chars
                (n.pfx.take (count_common_prefix_chars n.pfx p)) q =
                min (count_common_prefix_chars n.pfx p) (count_common_prefix_chars n.pfx q) :=
              ccp_take_left _ _ _
            by_cases hlt : count_common_prefix_chars n.pfx q < count_common_prefix_chars n.pfx p
            · rw [rmv_diverge w' hqne2
                (by simp only [RadixNode.pfx_mk]; rw [hccpq, hbl2]; omega)]
              rw [rmv_diverge w' hqne2 (by omega)]
            · have hge : count_common_prefix_chars n.pfx p ≤
                  count_common_prefix_chars n.pfx q := by omega
              have hclq : count_common_prefix_chars n.pfx p ≤ q.length := by
                have := ccp_le_length_right n.pfx q; omega
              have hccl2 : count_common_prefix_chars
                  (n.pfx.take (count_common_prefix_chars n.pfx p)) q =
                  count_common_prefix_chars n.pfx p := by rw [hccpq]; omega
              have hbd2 : byteDrop (count_common_prefix_chars n.pfx p) q =
                  some (q.drop (count_common_prefix_chars n.pfx p)) :=
                byteDrop_of_ascii (fun d hd => hasciiQ d (List.mem_of_mem_take hd)) hclq
              cases hqd : q.drop (count_common_prefix_chars n.pfx p) with
              | nil =>
                have hdqeq : count_common_prefix_chars n.pfx q =
                    count_common_prefix_chars n.pfx p := by
                  have := congrArg List.length hqd
                  simp only [List.length_drop, List.length_nil] at this
                  have := ccp_le_length_right n.pfx q
                  omega
                rw [rmv_exact w' hqne2
                  (by simp only [RadixNode.pfx_mk]; rw [hccl2, hbl2])
                  (by simp only [RadixNode.pfx_mk]; rw [hccl2, hbd2, hqd])]
                rw [rmv_diverge w' hqne2 (by omega)]
                rw [take_value_cases]
                simp only [RadixNode.exact_value_mk, RadixNode.wildcard_value_mk]
                cases w' <;> simp
              | cons hq2 qr2 =>
                by_cases hqc : hq2 = c
                · subst hqc
                  have hfc2 : findChild (setChild [(sc, RadixNode.mk (sc :: stail) n.children
                      n.exact_value n.wildcard_value)] hq2 ch) hq2 = some ch :=
                    findChild_setChild_self _ _ _
                  rw [rmv_child w' hqne2
                    (by simp only [RadixNode.pfx_mk]; rw [hccl2, hbl2])
                    (by simp only [RadixNode.pfx_mk]; rw [hccl2, hbd2, hqd])
                    (by simp only [RadixNode.children_mk]; exact hfc2)]
                  have hfc_none : findChild [(sc, RadixNode.mk (sc :: stail) n.children
                      n.exact_value n.wildcard_value)] hq2 = none := by
                    simp only [findChild]
                    rw [if_neg hcsc]
                  rw [hfc_none] at hrec
                  simp only [Option.getD_none] at hrec
                  have hkey2 : (hq2 :: prem) ≠ (hq2 :: qr2) ∨ w ≠ w' := by
                    by_cases hww : w = w'
                    · left
                      have hpq : p ≠ q := by
                        rcases hkey with hk | hk
                        · exact hk
                        · rw [hww] at hk; exact absurd rfl hk
                      intro hh
                      apply hpq
                      have htkq : n.pfx.take (count_common_prefix_chars n.pfx p) =
                          q.take (count_common_prefix_chars n.pfx p) :=
                        take_eq_of_le_ccp hge
                      have hpq2 : p.take (count_common_prefix_chars n.pfx p) =
                          q.take (count_common_prefix_chars n.pfx p) := by
                        rw [← htake, htkq]
                      calc p = p.take (count_common_prefix_chars n.pfx p) ++
                                p.drop (count_common_prefix_chars n.pfx p) :=
                              (List.take_append_drop _ _).symm
                        _ = q.take (count_common_prefix_chars n.pfx p) ++
                                q.drop (count_common_prefix_chars n.pfx p) := by
                              rw [hpq2, hcr, hqd, hh]
                        _ = q := List.take_append_drop _ _
                    · right; exact hww
                  have hasciiQd : asciiPath (hq2 :: qr2) := by
                    rw [← hqd]; exact asciiPath_drop hasciiQ _
                  have happ := ih hasciiRest hasciiQd
                    (Or.inr ⟨by simp, by simp⟩) hkey2 hrec
                  rw [remove_new_none] at happ
                  have hdq2 : count_common_prefix_chars n.pfx q =
                      count_common_prefix_chars n.pfx p :=
                    ccp_eq_of_heads_ne hge hdropfx hqd hcsc
                  rw [rmv_diverge w' hqne2 (by omega)]
                  exact happ
                · have hfseq : findChild (setChild [(sc, RadixNode.mk (sc :: stail) n.children
                      n.exact_value n.wildcard_value)] c ch) hq2 =
                      findChild [(sc, RadixNode.mk (sc :: stail) n.children
                        n.exact_value n.wildcard_value)] hq2 :=
                    findChild_setChild_ne _ _ hqc
                  by_cases hqsc : hq2 = sc
                  · subst hqsc
                    have hfc2 : findChild [(hq2, RadixNode.mk (hq2 :: stail) n.children
                        n.exact_value n.wildcard_value)] hq2 =
                        some (RadixNode.mk (hq2 :: stail) n.children
                          n.exact_value n.wildcard_value) := by
                      simp [findChild]
                    rw [rmv_child w' hqne2
                      (by simp only [RadixNode.pfx_mk]; rw [hccl2, hbl2])
                      (by simp only [RadixNode.pfx_mk]; rw [hccl2, hbd2, hqd])
                      (by simp only [RadixNode.children_mk]; rw [hfseq]; exact hfc2)]
                    have hshift := remove_fst_drop (n := n) (q := q)
                      (k := count_common_prefix_chars n.pfx p) w' hasciiQ hge
                      (by rw [hqd]; simp)
                    rw [hdropfx, hqd] at hshift
                    simpa using hshift
                  · have hfc2 : findChild [(sc, RadixNode.mk (sc :: stail) n.children
                        n.exact_value n.wildcard_value)] hq2 = none := by
                      simp only [findChild]
                      rw [if_neg (fun hh => hqsc (Eq.symm hh))]
                    rw [rmv_nochild w' hqne2
                      (by simp only [RadixNode.pfx_mk]; rw [hccl2, hbl2])
                      (by simp only [RadixNode.pfx_mk]; rw [hccl2, hbd2, hqd])
                      (by simp only [RadixNode.children_mk]; rw [hfseq]; exact hfc2)]
                    have hdq2 : count_common_prefix_chars n.pfx q =
                        count_common_prefix_chars n.pfx p :=
                      ccp_eq_of_heads_ne hge hdropfx hqd (fun hh => hqsc (Eq.symm hh))
                    rw [rmv_diverge w' hqne2 (by omega)]
      · -- insert stores its value at this node
        rw [if_neg hlen] at h
        have hn' : n' = n1.store_value v w := (Option.some.inj h).symm
        subst hn'
        have hclp : count_common_prefix_chars n.pfx p = p.length := by omega
        rcases hshape with ⟨hn1n, hbleq⟩ | ⟨sc, stail, hdropfx, hsplt, hn1eq⟩
        · rw [hn1n] at hn1pfx ⊢
          have hpfxp : n.pfx = p := by rw [hn1pfx, hclp, List.take_length]
          have hqne2 : q ≠ [] := by
            rcases hroot with h0 | h0
            · rw [h0] at hpfxp; exact absurd hpfxp.symm hpne
            · exact h0.2
          exact store_frame_nosplit hasciiP hasciiQ hpfxp hqne2 hkey
        · subst hn1eq
          have hpfxne : n.pfx ≠ [] := by
            intro hh
            rw [hh] at hsplt
            simp [byteLen] at hsplt
          have hqne2 : q ≠ [] := by
            rcases hroot with h0 | h0
            · exact absurd h0 hpfxne
            · exact h0.2
          exact store_frame_split hasciiP hasciiQ hqne2 hkey hsplt hdropfx hclp

/-- Removal never deletes child entries: a node with children keeps some. -/
theorem removeAux_children_ne_nil {T : Type} {f : Nat} {n n2 : RadixNode T}
    {path : List Char} {w : Bool} {r : Option T}
    (h : removeAux f n path w = some (r, n2)) (hne : n.children ≠ []) :
    n2.children ≠ [] := by
  cases f with
  | zero => simp [removeAux] at h
  | succ f =>
    simp only [removeAux] at h
    by_cases hp : path.isEmpty
    · rw [if_pos hp, take_value_cases] at h
      have h2 := Option.some.inj h
      rw [Prod.mk.injEq] at h2
      rw [← h2.2]
      simpa using hne
    · rw [if_neg hp] at h
      by_cases hcl : count_common_prefix_chars n.pfx path = byteLen n.pfx
      · rw [if_pos hcl] at h
        cases hbd : byteDrop (count_common_prefix_chars n.pfx path) path with
        | none =>
          rw [hbd] at h
          have h2 := Option.some.inj h
          rw [Prod.mk.injEq] at h2
          rw [← h2.2]
          exact hne
        | some remaining =>
          rw [hbd] at h
          cases remaining with
          | nil =>
            simp only at h
            rw [take_value_cases] at h
            have h2 := Option.some.inj h
            rw [Prod.mk.injEq] at h2
            rw [← h2.2]
            simpa using hne
          | cons c rem =>
            simp only at h
            cases hfc : findChild n.children c with
            | none =>
              rw [hfc] at h
              have h2 := Option.some.inj h
              rw [Prod.mk.injEq] at h2
              rw [← h2.2]
              exact hne
            | some child =>
              rw [hfc] at h
              simp only at h
              cases hrec : removeAux f child (c :: rem) w with
              | none => rw [hrec] at h; simp at h
              | some pr =>
                rw [hrec] at h
                simp only [Option.map_some'] at h
                have h2 := Option.some.inj h
                rw [Prod.mk.injEq] at h2
                rw [← h2.2]
                simpa using setChild_ne_nil n.children c pr.2
      · rw [if_neg hcl] at h
        have h2 := Option.some.inj h
        rw [Prod.mk.injEq] at h2
        rw [← h2.2]
        exact hne

/-! ## The shape of a singleton trie -/

theorem insertAux_nil_path {T : Type} {fu : Nat} {n : RadixNode T} {v : T} {w : Bool}
    (hfu : 1 ≤ fu) : insertAux fu n [] v w = some (n.store_value v w) := by
  obtain ⟨f, rfl⟩ : ∃ f, fu = f + 1 := ⟨fu - 1, by omega⟩
  simp [insertAux]

/-- Inserting a path into a fresh node carrying that same ASCII path as its
prefix just stores the value there. -/
theorem insertAux_fresh_ascii {T : Type} {fu : Nat} {q : List Char} {v : T} {w : Bool}
    (hascii : asciiPath q) (hq : q ≠ []) (hfu : 1 ≤ fu) :
    insertAux fu (RadixNode.new q) q v w = some ((RadixNode.new q).store_value v w) := by
  obtain ⟨f, rfl⟩ : ∃ f, fu = f + 1 := ⟨fu - 1, by omega⟩
  simp only [insertAux]
  rw [if_neg (by rw [isEmpty_false_of_ne hq]; simp)]
  simp only [RadixNode.new, RadixNode.pfx_mk]
  rw [ccp_self, asciiPath_byteLen hascii]
  rw [if_neg (by omega)]
  simp only [Option.some_bind]
  rw [if_neg (by omega)]

theorem insert_new_nil {T : Type} {v : T} {w : Bool} :
    RadixNode.insert (T := T) (RadixNode.new []) [] v w =
      some ((RadixNode.new []).store_value v w) := by
  unfold RadixNode.insert
  exact insertAux_nil_path (by omega)

/-- Inserting a nonempty ASCII path into an empty root creates exactly one
child that carries the whole path and the stored value. -/
theorem insert_new_cons {T : Type} {q : List Char} {v : T} {w : Bool} {c : Char}
    {rest : List Char} (hascii : asciiPath q) (hq : q = c :: rest) :
    RadixNode.insert (RadixNode.new []) q v w =
      some (.mk [] [(c, (RadixNode.new q).store_value v w)] none none) := by
  unfold RadixNode.insert
  have hqne : q ≠ [] := by rw [hq]; simp
  obtain ⟨f, hf, hf1⟩ : ∃ f, nodeSize (RadixNode.new ([] : List Char) : RadixNode T) +
      2 * byteLen q + 2 = f + 1 ∧ 1 ≤ f := by
    refine ⟨nodeSize (RadixNode.new ([] : List Char) : RadixNode T) + 2 * byteLen q + 1,
      by omega, by omega⟩
  rw [hf]
  simp only [insertAux]
  rw [if_neg (by rw [isEmpty_false_of_ne hqne]; simp)]
  simp only [RadixNode.new, RadixNode.pfx_mk, RadixNode.children_mk]
  rw [ccp_nil_left]
  rw [show byteLen ([] : List Char) = 0 from rfl]
  rw [if_neg (by omega)]
  simp only [Option.some_bind]
  rw [if_pos (byteLen_pos hqne)]
  rw [byteDrop_zero]
  simp only [Option.some_bind]
  rw [hq]
  simp only [findChild, Option.getD_none]
  rw [← hq]
  have hins := @insertAux_fresh_ascii T f q v w hascii hqne hf1
  simp only [RadixNode.new] at hins
  rw [hins]
  simp only [Option.map_some']
  rfl

theorem asciiPath_append {a b : List Char} (ha : asciiPath a) (hb : asciiPath b) :
    asciiPath (a ++ b) := by
  intro d hd
  rcases List.mem_append.mp hd with hh | hh
  · exact ha d hh
  · exact hb d hh

theorem asciiPath_wildcard : asciiPath WILDCARD_SUFFIX := by decide

/-- Descending from a root node (empty prefix) into the child indexed by the
first character of the query. -/
theorem gwf_root_child {T : Type} {R S : RadixNode T} {c : Char} {tail : List Char}
    (fb : Option T) (hpfx : R.pfx = []) (hfc : findChild R.children c = some S) :
    R.get_with_fallback (c :: tail) fb =
      S.get_with_fallback (c :: tail) (R.wildcard_value.or fb) := by
  apply gwf_child fb (by simp) ?_ ?_ hfc
  · rw [hpfx, ccp_nil_left]; rfl
  · rw [hpfx, ccp_nil_left, byteDrop_zero]

theorem gwf_root_nochild {T : Type} {R : RadixNode T} {c : Char} {tail : List Char}
    (fb : Option T) (hpfx : R.pfx = []) (hfc : findChild R.children c = none) :
    R.get_with_fallback (c :: tail) fb = R.wildcard_value.or fb := by
  apply @gwf_nochild T R (c :: tail) fb c tail (by simp) ?_ ?_ hfc
  · rw [hpfx, ccp_nil_left]; rfl
  · rw [hpfx, ccp_nil_left, byteDrop_zero]

theorem rmv_root_child {T : Type} {R S : RadixNode T} {c : Char} {tail : List Char}
    (w : Bool) (hpfx : R.pfx = []) (hfc : findChild R.children c = some S) :
    R.remove (c :: tail) w =
      ((S.remove (c :: tail) w).1,
        .mk R.pfx (setChild R.children c (S.remove (c :: tail) w).2)
          R.exact_value R.wildcard_value) := by
  apply rmv_child w (by simp) ?_ ?_ hfc
  · rw [hpfx, ccp_nil_left]; rfl
  · rw [hpfx, ccp_nil_left, byteDrop_zero]

/-- Lookup in a childless node whose prefix is an ASCII string `q`, queried
with `q ++ ext`: the exact slot answers for `ext = []`, the wildcard slot
(before the inherited fallback) for every proper extension. -/
theorem gwf_leaf_append {T : Type} {S : RadixNode T} {q ext : List Char} (fb : Option T)
    (hascii : asciiPath q) (hq : q ≠ []) (hpfx : S.pfx = q) (hch : S.children = []) :
    S.get_with_fallback (q ++ ext) fb =
      match ext with
      | [] => S.exact_value.or (S.wildcard_value.or fb)
      | _ :: _ => S.wildcard_value.or fb := by
  cases ext with
  | nil =>
    simp only [List.append_nil]
    exact gwf_step_exact fb hascii hq hpfx
  | cons e erest =>
    have h1 : count_common_prefix_chars S.pfx (q ++ e :: erest) = byteLen S.pfx := by
      rw [hpfx, ccp_append_right, asciiPath_byteLen hascii]
    have h2 : byteDrop (count_common_prefix_chars S.pfx (q ++ e :: erest))
        (q ++ e :: erest) = some (e :: erest) := by
      rw [hpfx, ccp_append_right]
      have hta : ∀ d ∈ (q ++ e :: erest).take q.length, charSize d = 1 := by
        intro d hd
        rw [List.take_left] at hd
        exact hascii d hd
      rw [byteDrop_of_ascii hta (by simp)]
      rw [List.drop_left]
    have h3 : findChild S.children e = none := by rw [hch]; rfl
    exact gwf_nochild fb (by simp) h1 h2 h3

/-! ## The specification-side finite map refined by the trie -/

/-- Run a list of public inserts left to right (`none`: some insert
panicked). -/
def foldInserts {T : Type} : Trie T → List (List Char × T) → Option (Trie T)
  | t, [] => some t
  | t, (p, v) :: rest => (Trie.insert t p v).bind fun t2 => foldInserts t2 rest

/-- The finite map the spec describes: keyed by (marker-stripped path,
wildcard flag), the most recent insert for a key winning. -/
def specLookup {T : Type} : List (List Char × T) → List Char × Bool → Option T
  | [], _ => none
  | (p, v) :: rest, k =>
    match specLookup rest k with
    | some r => some r
    | none => if Trie.parse_path p = k then some v else none

theorem parse_path_take (p : List Char) : ∃ k, (Trie.parse_path p).1 = p.take k := by
  unfold Trie.parse_path stripSuffix
  by_cases hs : WILDCARD_SUFFIX <:+ p
  · rw [if_pos hs]
    exact ⟨p.length - WILDCARD_SUFFIX.length, rfl⟩
  · rw [if_neg hs]
    exact ⟨p.length, (List.take_length p).symm⟩

theorem asciiPath_parse {p : List Char} (h : asciiPath p) :
    asciiPath (Trie.parse_path p).1 := by
  obtain ⟨k, hk⟩ := parse_path_take p
  rw [hk]
  exact asciiPath_take h k

/-- A public insert keeps the root prefix empty. -/
theorem insertAux_root_pfx {T : Type} {f : Nat} {n n' : RadixNode T} {p : List Char}
    {v : T} {w : Bool} (h : insertAux f n p v w = some n') (hpfx : n.pfx = []) :
    n'.pfx = [] := by
  cases f with
  | zero => simp [insertAux] at h
  | succ f =>
    simp only [insertAux] at h
    by_cases hp : p.isEmpty
    · rw [if_pos hp] at h
      have := (Option.some.inj h).symm
      rw [this, store_value_cases]
      simpa using hpfx
    · rw [if_neg hp] at h
      rw [if_neg (by rw [hpfx]; simp [ccp_nil_left, byteLen])] at h
      simp only [Option.some_bind] at h
      split at h
      · cases hbd : byteDrop (count_common_prefix_chars n.pfx p) p with
        | none => rw [hbd] at h; simp at h
        | some rest =>
          rw [hbd] at h
          simp only [Option.some_bind] at h
          cases rest with
          | nil => simp at h
          | cons c rem =>
            simp only at h
            cases hrec : insertAux f ((findChild n.children c).getD (RadixNode.new (c :: rem)))
                (c :: rem) v w with
            | none => rw [hrec] at h; simp at h
            | some ch =>
              rw [hrec] at h
              simp only [Option.map_some'] at h
              rw [(Option.some.inj h).symm]
              simpa using hpfx
      · have := (Option.some.inj h).symm
        rw [this, store_value_cases]
        simpa using hpfx

theorem trie_insert_root_pfx {T : Type} {t t' : Trie T} {p : List Char} {v : T}
    (h : Trie.insert t p v = some t') (hpfx : t.root.pfx = []) : t'.root.pfx = [] := by
  rw [Trie.insert_def] at h
  cases hins : t.root.insert (Trie.parse_path p).1 v (Trie.parse_path p).2 with
  | none => rw [hins] at h; simp at h
  | some n' =>
    rw [hins] at h
    simp only [Option.map_some'] at h
    rw [(Option.some.inj h).symm]
    exact insertAux_root_pfx hins hpfx

/-- Refinement of the spec-side map, relative to a base trie: the last insert
at the removed key wins, otherwise the base trie answers. -/
theorem fold_refines_aux {T : Type} {L : List (List Char × T)} {s t : Trie T}
    {q : List Char}
    (hroot0 : s.root.pfx = [])
    (hasciiL : ∀ pv ∈ L, asciiPath pv.1) (hasciiQ : asciiPath q)
    (h : foldInserts s L = some t) :
    (Trie.remove t q).1 =
      match specLookup L (Trie.parse_path q) with
      | some r => some r
      | none => (Trie.remove s q).1 := by
  induction L generalizing s with
  | nil =>
    simp only [foldInserts] at h
    rw [(Option.some.inj h).symm]
    simp [specLookup]
  | cons pv rest ih =>
    obtain ⟨p, v⟩ := pv
    simp only [foldInserts] at h
    cases hins : Trie.insert s p v with
    | none => rw [hins] at h; simp at h
    | some t1 =>
      rw [hins] at h
      simp only [Option.some_bind] at h
      have hroot1 : t1.root.pfx = [] := trie_insert_root_pfx hins hroot0
      have ihh := ih (s := t1) hroot1 (fun x hx => hasciiL x (by simp [hx])) h
      rw [ihh]
      simp only [specLookup]
      cases hsl : specLookup rest (Trie.parse_path q) with
      | some r => simp
      | none =>
        simp only
        by_cases hkeq : Trie.parse_path p = Trie.parse_path q
        · rw [if_pos hkeq]
          -- same key: the insert is found back by the removal
          rw [Trie.insert_def] at hins
          cases hins2 : s.root.insert (Trie.parse_path p).1 v (Trie.parse_path p).2 with
          | none => rw [hins2] at hins; simp at hins
          | some root1 =>
            rw [hins2] at hins
            simp only [Option.map_some'] at hins
            have ht1 : t1 = ⟨root1⟩ := (Option.some.inj hins).symm
            rw [Trie.remove_def, ht1]
            rw [← hkeq]
            exact insertAux_remove_back (asciiPath_parse (hasciiL (p, v) (by simp))) hins2
        · rw [if_neg hkeq]
          -- different key: frame
          rw [Trie.insert_def] at hins
          cases hins2 : s.root.insert (Trie.parse_path p).1 v (Trie.parse_path p).2 with
          | none => rw [hins2] at hins; simp at hins
          | some root1 =>
            rw [hins2] at hins
            simp only [Option.map_some'] at hins
            have ht1 : t1 = ⟨root1⟩ := (Option.some.inj hins).symm
            rw [Trie.remove_def, Trie.remove_def, ht1]
            simp only
            have hkey : (Trie.parse_path p).1 ≠ (Trie.parse_path q).1 ∨
                (Trie.parse_path p).2 ≠ (Trie.parse_path q).2 := by
              by_contra hcon
              push_neg at hcon
              exact hkeq (Prod.ext hcon.1 hcon.2)
            exact insertAux_remove_frame
              (asciiPath_parse (hasciiL (p, v) (by simp)))
              (asciiPath_parse hasciiQ)
              (Or.inl hroot0) hkey hins2

/-- An immediately repeated public removal returns nothing. -/
theorem trie_remove_twice {T : Type} (t : Trie T) (q : List Char) :
    (Trie.remove (Trie.remove t q).2 q).1 = none := by
  rw [Trie.remove_def, Trie.remove_def]
  simp only
  have had := @removeAux_adequate T (nodeSize t.root + 1) t.root
    (Trie.parse_path q).1 (Trie.parse_path q).2 (by omega)
  obtain ⟨pr, hpr⟩ := Option.isSome_iff_exists.mp had
  have h1 : t.root.remove (Trie.parse_path q).1 (Trie.parse_path q).2 = pr :=
    remove_of_removeAux hpr
  rw [h1]
  obtain ⟨r, n2⟩ := pr
  cases hr : r with
  | some val =>
    rw [hr] at hpr
    have had2 := @removeAux_adequate T (nodeSize n2 + 1) n2
      (Trie.parse_path q).1 (Trie.parse_path q).2 (by omega)
    obtain ⟨pr2, hpr2⟩ := Option.isSome_iff_exists.mp had2
    have h2 : n2.remove (Trie.parse_path q).1 (Trie.parse_path q).2 = pr2 :=
      remove_of_removeAux hpr2
    simp only [h2]
    exact removeAux_removed_none hpr hpr2
  | none =>
    rw [hr] at hpr
    have hun : n2 = t.root := removeAux_unchanged hpr
    rw [hun, h1, hr]

/-- A successful insert of a nonempty path into an empty root creates at
least one child. -/
theorem insertAux_new_children {T : Type} {f : Nat} {p : List Char} {v : T} {w : Bool}
    {n' : RadixNode T} (hpne : p ≠ [])
    (h : insertAux f (RadixNode.new []) p v w = some n') : n'.children ≠ [] := by
  cases f with
  | zero => simp [insertAux] at h
  | succ f =>
    simp only [insertAux] at h
    rw [if_neg (by rw [isEmpty_false_of_ne hpne]; simp)] at h
    simp only [RadixNode.new, RadixNode.pfx_mk, RadixNode.children_mk] at h
    rw [ccp_nil_left, show byteLen ([] : List Char) = 0 from rfl] at h
    rw [if_neg (by omega)] at h
    simp only [Option.some_bind] at h
    rw [if_pos (byteLen_pos hpne), byteDrop_zero] at h
    simp only [Option.some_bind] at h
    cases hp2 : p with
    | nil => exact absurd hp2 hpne
    | cons c rest =>
      rw [hp2] at h
      simp only [findChild, Option.getD_none] at h
      cases hrec : insertAux f (RadixNode.mk (c :: rest) [] none none) (c :: rest) v w with
      | none => rw [hrec] at h; simp at h
      | some ch =>
        rw [hrec] at h
        simp only [Option.map_some'] at h
        rw [(Option.some.inj h).symm]
        simp [setChild]

/-! ## Claims -/

/-- One insertion step descending into an existing child of a node whose
prefix is an ASCII slice of the path. -/
theorem insertAux_step_child {T : Type} {f : Nat} {n s s' : RadixNode T} {p : List Char}
    {k : Nat} {c : Char} {rem : List Char} {v : T} {w : Bool}
    (hascii : asciiPath p) (hpfx : n.pfx = p.take k) (hk : k ≤ p.length)
    (hdrop : p.drop k = c :: rem) (hfc : findChild n.children c = some s)
    (hrec : insertAux f s (c :: rem) v w = some s') :
    insertAux (f + 1) n p v w =
      some (.mk n.pfx (setChild n.children c s') n.exact_value n.wildcard_value) := by
  have hpne : p ≠ [] := by
    intro hh; rw [hh] at hdrop; simp at hdrop
  have hklt : k < p.length := by
    have := congrArg List.length hdrop
    simp [List.length_drop] at this
    omega
  have hccl : count_common_prefix_chars n.pfx p = k := by
    rw [hpfx, ccp_take_left, ccp_self]; omega
  have hbl : byteLen n.pfx = k := by
    rw [hpfx]; exact byteLen_take_ascii hascii hk
  have hblp : byteLen p = p.length := asciiPath_byteLen hascii
  have hbd : byteDrop k p = some (c :: rem) := by
    rw [← hdrop]
    exact byteDrop_of_ascii (fun d hd => hascii d (List.mem_of_mem_take hd)) hk
  simp only [insertAux]
  rw [if_neg (fun hh => hpne (List.isEmpty_iff.mp hh))]
  rw [hccl, hbl]
  rw [if_neg (by omega)]
  simp only [Option.some_bind]
  rw [if_pos (by omega)]
  rw [hbd]
  simp only [Option.some_bind]
  rw [hfc]
  simp only [Option.getD_some]
  rw [hrec]
  simp only [Option.map_some']

/-- One insertion step creating a fresh child carrying the whole remaining
(ASCII) path. -/
theorem insertAux_step_fresh {T : Type} {f : Nat} {n : RadixNode T} {p : List Char}
    {k : Nat} {c : Char} {rem : List Char} {v : T} {w : Bool}
    (hascii : asciiPath p) (hpfx : n.pfx = p.take k) (hk : k ≤ p.length)
    (hdrop : p.drop k = c :: rem) (hfc : findChild n.children c = none) (hf : 1 ≤ f) :
    insertAux (f + 1) n p v w =
      some (.mk n.pfx
        (setChild n.children c ((RadixNode.new (c :: rem)).store_value v w))
        n.exact_value n.wildcard_value) := by
  have hpne : p ≠ [] := by
    intro hh; rw [hh] at hdrop; simp at hdrop
  have hklt : k < p.length := by
    have := congrArg List.length hdrop
    simp [List.length_drop] at this
    omega
  have hccl : count_common_prefix_chars n.pfx p = k := by
    rw [hpfx, ccp_take_left, ccp_self]; omega
  have hbl : byteLen n.pfx = k := by
    rw [hpfx]; exact byteLen_take_ascii hascii hk
  have hblp : byteLen p = p.length := asciiPath_byteLen hascii
  have hbd : byteDrop k p = some (c :: rem) := by
    rw [← hdrop]
    exact byteDrop_of_ascii (fun d hd => hascii d (List.mem_of_mem_take hd)) hk
  have hrema : asciiPath (c :: rem) := by
    rw [← hdrop]; exact asciiPath_drop hascii _
  simp only [insertAux]
  rw [if_neg (fun hh => hpne (List.isEmpty_iff.mp hh))]
  rw [hccl, hbl]
  rw [if_neg (by omega)]
  simp only [Option.some_bind]
  rw [if_pos (by omega)]
  rw [hbd]
  simp only [Option.some_bind]
  rw [hfc]
  simp only [Option.getD_none]
  rw [insertAux_fresh_ascii hrema (by simp) hf]
  simp only [Option.map_some']

/-- Variant of the child descent rule that only needs the consumed slice of
the path to be ASCII, leaving the tail of the query unconstrained. -/
theorem gwf_step_child_take {T : Type} {n s : RadixNode T} {p : List Char} {k : Nat}
    {c : Char} {rem : List Char} (fb : Option T) (hascii : asciiPath (p.take k))
    (hpfx : n.pfx = p.take k) (hk : k ≤ p.length) (hdrop : p.drop k = c :: rem)
    (hfc : findChild n.children c = some s) :
    n.get_with_fallback p fb = s.get_with_fallback (c :: rem) (n.wildcard_value.or fb) := by
  have hpne : p ≠ [] := by
    intro hh; rw [hh] at hdrop; simp at hdrop
  have hccl : count_common_prefix_chars n.pfx p = k := by
    rw [hpfx, ccp_take_left, ccp_self]; omega
  have hbl : byteLen n.pfx = k := by
    rw [hpfx, asciiPath_byteLen hascii, List.length_take]; omega
  have hbd : byteDrop (count_common_prefix_chars n.pfx p) p = some (c :: rem) := by
    rw [hccl, ← hdrop]
    exact byteDrop_of_ascii (fun d hd => hascii d hd) hk
  exact gwf_child fb hpne (by rw [hccl, hbl]) hbd hfc

/-! ## Wildcard-free trees -/

@[simp] theorem noWild_mk {T : Type} (q : List Char) (cs : List (Char × RadixNode T))
    (ev wv : Option T) : noWild (.mk q cs ev wv) = (wv.isNone && noWildList cs) := rfl

@[simp] theorem noWildList_nil {T : Type} :
    noWildList ([] : List (Char × RadixNode T)) = true := rfl

@[simp] theorem noWildList_cons {T : Type} (c : Char) (m : RadixNode T)
    (t : List (Char × RadixNode T)) :
    noWildList ((c, m) :: t) = (noWild m && noWildList t) := rfl

theorem noWild_eq {T : Type} (n : RadixNode T) :
    noWild n = true ↔ n.wildcard_value = none ∧ noWildList n.children = true := by
  cases n with
  | mk q cs ev wv =>
    simp [Bool.and_eq_true, Option.isNone_iff_eq_none]

theorem noWild_new {T : Type} (s : List Char) :
    noWild (RadixNode.new (T := T) s) = true := rfl

theorem noWildList_findChild {T : Type} {cs : List (Char × RadixNode T)} {c : Char}
    {ch : RadixNode T} (hl : noWildList cs = true) (hfc : findChild cs c = some ch) :
    noWild ch = true := by
  induction cs with
  | nil => simp [findChild] at hfc
  | cons hd t ih =>
    obtain ⟨k, m⟩ := hd
    simp only [noWildList_cons, Bool.and_eq_true] at hl
    simp only [findChild] at hfc
    by_cases hk : k = c
    · rw [if_pos hk] at hfc
      obtain rfl : m = ch := Option.some.inj hfc
      exact hl.1
    · rw [if_neg hk] at hfc
      exact ih hl.2 hfc

theorem noWildList_setChild {T : Type} {cs : List (Char × RadixNode T)} {c : Char}
    {x : RadixNode T} (hl : noWildList cs = true) (hx : noWild x = true) :
    noWildList (setChild cs c x) = true := by
  induction cs with
  | nil => simp [setChild, hx]
  | cons hd t ih =>
    obtain ⟨k, m⟩ := hd
    simp only [noWildList_cons, Bool.and_eq_true] at hl
    simp only [setChild]
    by_cases hk : k = c
    · rw [if_pos hk]
      simp only [noWildList_cons, Bool.and_eq_true]
      exact ⟨hx, hl.2⟩
    · rw [if_neg hk]
      simp only [noWildList_cons, Bool.and_eq_true]
      exact ⟨hl.1, ih hl.2⟩

theorem noWild_store_false {T : Type} {n : RadixNode T} (v : T)
    (h : noWild n = true) : noWild (n.store_value v false) = true := by
  rw [store_value_false]
  rw [noWild_eq] at h
  simp [Option.isNone_iff_eq_none, h.1, h.2]

theorem noWild_split_at {T : Type} {n n1 : RadixNode T} {pos : Nat}
    (hs : n.split_at pos = some n1) (h : noWild n = true) : noWild n1 = true := by
  unfold RadixNode.split_at at hs
  by_cases hle : byteLen n.pfx ≤ pos
  · rw [if_pos hle] at hs
    obtain rfl : n = n1 := Option.some.inj hs
    exact h
  · rw [if_neg hle] at hs
    cases ht : byteTake pos n.pfx with
    | none => rw [ht] at hs; simp at hs
    | some kept =>
      rw [ht] at hs
      simp only [Option.some_bind] at hs
      cases hd : byteDrop pos n.pfx with
      | none => rw [hd] at hs; simp at hs
      | some suf =>
        rw [hd] at hs
        simp only [Option.some_bind] at hs
        cases suf with
        | nil => simp at hs
        | cons c cs =>
          rw [noWild_eq] at h
          obtain rfl : (RadixNode.mk kept [(c, .mk (c :: cs) n.children n.exact_value
              n.wildcard_value)] none none) = n1 := Option.some.inj hs
          simp [Option.isNone_iff_eq_none, h.1, h.2]

/-- In a wildcard-free tree a lookup returns exactly the value that the
exact removal at the same (ASCII) path reports, else the inherited
fallback: with no wildcard routes there is nothing else to answer from. -/
theorem noWild_get {T : Type} :
    ∀ (k : Nat) (n : RadixNode T) (p : List Char) (fb : Option T), nodeSize n ≤ k →
      noWild n = true → asciiPath p →
      n.get_with_fallback p fb = ((n.remove p false).1).or fb := by
  intro k
  induction k with
  | zero =>
    intro n p fb hk _ _
    have := nodeSize_eq n
    omega
  | succ k ih =>
    intro n p fb hk hnw hascii
    rw [noWild_eq] at hnw
    cases p with
    | nil =>
      rw [gwf_nil, rmv_nil, take_value_false]
      simp [hnw.1]
    | cons a p0 =>
      by_cases hcl : count_common_prefix_chars n.pfx (a :: p0) = byteLen n.pfx
      · have hle : count_common_prefix_chars n.pfx (a :: p0) ≤ (a :: p0).length :=
          ccp_le_length_right _ _
        have hbd : byteDrop (count_common_prefix_chars n.pfx (a :: p0)) (a :: p0) =
            some ((a :: p0).drop (count_common_prefix_chars n.pfx (a :: p0))) :=
          byteDrop_of_ascii (fun d hd => hascii d (List.mem_of_mem_take hd)) hle
        cases hdrop : (a :: p0).drop (count_common_prefix_chars n.pfx (a :: p0)) with
        | nil =>
          rw [hdrop] at hbd
          rw [gwf_exact fb (by simp) hcl hbd, rmv_exact false (by simp) hcl hbd,
            take_value_false]
          simp [hnw.1]
        | cons c rem =>
          rw [hdrop] at hbd
          cases hfc : findChild n.children c with
          | none =>
            rw [gwf_nochild fb (by simp) hcl hbd hfc,
              rmv_nochild false (by simp) hcl hbd hfc]
            simp [hnw.1]
          | some ch =>
            rw [gwf_child fb (by simp) hcl hbd hfc, rmv_child false (by simp) hcl hbd hfc]
            have hchsz : nodeSize ch ≤ k := by
              have h1 := findChild_size hfc
              have h2 := nodeSize_eq n
              omega
            have hrema : asciiPath (c :: rem) := by
              rw [← hdrop]; exact asciiPath_drop hascii _
            rw [hnw.1]
            simp only
            rw [show (Option.or none fb) = fb from rfl]
            exact ih ch (c :: rem) fb hchsz (noWildList_findChild hnw.2 hfc) hrema
      · rw [gwf_diverge fb (by simp) hcl, rmv_diverge false (by simp) hcl]
        simp

/-- A plain (non-wildcard) insertion introduces no wildcard value. -/
theorem noWild_insertAux {T : Type} :
    ∀ (f : Nat) {n n' : RadixNode T} {p : List Char} {v : T},
      insertAux f n p v false = some n' → noWild n = true → noWild n' = true := by
  intro f
  induction f with
  | zero => intro n n' p v h; simp [insertAux] at h
  | succ f ih =>
    intro n n' p v h hnw
    simp only [insertAux] at h
    by_cases hp : p.isEmpty
    · rw [if_pos hp] at h
      obtain rfl : n.store_value v false = n' := Option.some.inj h
      exact noWild_store_false v hnw
    · rw [if_neg hp] at h
      by_cases hsp : count_common_prefix_chars n.pfx p < byteLen n.pfx
      · rw [if_pos hsp] at h
        cases hs : n.split_at (count_common_prefix_chars n.pfx p) with
        | none => rw [hs] at h; simp at h
        | some n1 =>
          rw [hs] at h
          simp only [Option.some_bind] at h
          have hnw1 : noWild n1 = true := noWild_split_at hs hnw
          by_cases hlt : count_common_prefix_chars n.pfx p < byteLen p
          · rw [if_pos hlt] at h
            cases hbd : byteDrop (count_common_prefix_chars n.pfx p) p with
            | none => rw [hbd] at h; simp at h
            | some rest =>
              rw [hbd] at h
              simp only [Option.some_bind] at h
              cases rest with
              | nil => simp at h
              | cons c rem =>
                simp only at h
                cases hrec : insertAux f ((findChild n1.children c).getD
                    (RadixNode.new (c :: rem))) (c :: rem) v false with
                | none => rw [hrec] at h; simp at h
                | some ch =>
                  rw [hrec] at h
                  simp only [Option.map_some'] at h
                  obtain rfl : RadixNode.mk n1.pfx (setChild n1.children c ch)
                      n1.exact_value n1.wildcard_value = n' := Option.some.inj h
                  have hchild : noWild ((findChild n1.children c).getD
                      (RadixNode.new (c :: rem))) = true := by
                    cases hfc : findChild n1.children c with
                    | none => simp [noWild_new]
                    | some c0 =>
                      simp only [Option.getD_some]
                      exact noWildList_findChild ((noWild_eq n1).mp hnw1).2 hfc
                  have hch : noWild ch = true := ih hrec hchild
                  rw [noWild_eq]
                  refine ⟨by simp [((noWild_eq n1).mp hnw1).1], ?_⟩
                  simp only [RadixNode.children_mk]
                  exact noWildList_setChild ((noWild_eq n1).mp hnw1).2 hch
          · rw [if_neg hlt] at h
            obtain rfl : n1.store_value v false = n' := Option.some.inj h
            exact noWild_store_false v hnw1
      · rw [if_neg hsp] at h
        simp only [Option.some_bind] at h
        by_cases hlt : count_common_prefix_chars n.pfx p < byteLen p
        · rw [if_pos hlt] at h
          cases hbd : byteDrop (count_common_prefix_chars n.pfx p) p with
          | none => rw [hbd] at h; simp at h
          | some rest =>
            rw [hbd] at h
            simp only [Option.some_bind] at h
            cases rest with
            | nil => simp at h
            | cons c rem =>
              simp only at h
              cases hrec : insertAux f ((findChild n.children c).getD
                  (RadixNode.new (c :: rem))) (c :: rem) v false with
              | none => rw [hrec] at h; simp at h
              | some ch =>
                rw [hrec] at h
                simp only [Option.map_some'] at h
                obtain rfl : RadixNode.mk n.pfx (setChild n.children c ch)
                    n.exact_value n.wildcard_value = n' := Option.some.inj h
                have hchild : noWild ((findChild n.children c).getD
                    (RadixNode.new (c :: rem))) = true := by
                  cases hfc : findChild n.children c with
                  | none => simp [noWild_new]
                  | some c0 =>
                    simp only [Option.getD_some]
                    exact noWildList_findChild ((noWild_eq n).mp hnw).2 hfc
                have hch : noWild ch = true := ih hrec hchild
                rw [noWild_eq]
                refine ⟨by simp [((noWild_eq n).mp hnw).1], ?_⟩
                simp only [RadixNode.children_mk]
                exact noWildList_setChild ((noWild_eq n).mp hnw).2 hch
        · rw [if_neg hlt] at h
          obtain rfl : n.store_value v false = n' := Option.some.inj h
          exact noWild_store_false v hnw

/-- Removal introduces no wildcard value. -/
theorem noWild_removeAux {T : Type} :
    ∀ (f : Nat) {n : RadixNode T} {p : List Char} {w : Bool}
      {pr : Option T × RadixNode T},
      removeAux f n p w = some pr → noWild n = true → noWild pr.2 = true := by
  intro f
  induction f with
  | zero => intro n p w pr h; simp [removeAux] at h
  | succ f ih =>
    intro n p w pr h hnw
    simp only [removeAux] at h
    by_cases hp : p.isEmpty
    · rw [if_pos hp] at h
      obtain rfl : n.take_value w = pr := Option.some.inj h
      rw [take_value_cases]
      rw [noWild_eq] at hnw
      cases w <;> simp [Option.isNone_iff_eq_none, hnw.1, hnw.2]
    · rw [if_neg hp] at h
      by_cases hcl : count_common_prefix_chars n.pfx p = byteLen n.pfx
      · rw [if_pos hcl] at h
        cases hbd : byteDrop (count_common_prefix_chars n.pfx p) p with
        | none =>
          rw [hbd] at h
          simp only at h
          obtain rfl : ((none : Option T), n) = pr := Option.some.inj h
          exact hnw
        | some remaining =>
          rw [hbd] at h
          simp only at h
          cases remaining with
          | nil =>
            obtain rfl : n.take_value w = pr := Option.some.inj h
            rw [take_value_cases]
            rw [noWild_eq] at hnw
            cases w <;> simp [Option.isNone_iff_eq_none, hnw.1, hnw.2]
          | cons c rem =>
            simp only at h
            cases hfc : findChild n.children c with
            | some child =>
              rw [hfc] at h
              simp only at h
              cases hrec : removeAux f child (c :: rem) w with
              | none => rw [hrec] at h; simp at h
              | some pr0 =>
                rw [hrec] at h
                simp only [Option.map_some'] at h
                obtain rfl : (pr0.1, RadixNode.mk n.pfx (setChild n.children c pr0.2)
                    n.exact_value n.wildcard_value) = pr := Option.some.inj h
                have hc0 : noWild child = true :=
                  noWildList_findChild ((noWild_eq n).mp hnw).2 hfc
                have hp2 : noWild pr0.2 = true := ih hrec hc0
                show noWild (RadixNode.mk n.pfx (setChild n.children c pr0.2)
                  n.exact_value n.wildcard_value) = true
                rw [noWild_eq]
                refine ⟨by simp [((noWild_eq n).mp hnw).1], ?_⟩
                simp only [RadixNode.children_mk]
                exact noWildList_setChild ((noWild_eq n).mp hnw).2 hp2
            | none =>
              rw [hfc] at h
              obtain rfl : ((none : Option T), n) = pr := Option.some.inj h
              exact hnw
      · rw [if_neg hcl] at h
        obtain rfl : ((none : Option T), n) = pr := Option.some.inj h
        exact hnw

/-- C1: the spec promises that insert, get and remove complete normally on
every input, with the character-counted common prefix length applied
consistently.  The code counts the common prefix in characters
(`count_common_prefix_chars`) but uses the count as a byte index
(`String::split_off`, byte slicing), so inserting the single two-byte
character path "é" into a fresh trie panics (modelled as `none`): the
common character count 1 is not a character boundary of the two-byte
prefix.  The conjuncts exhibit the mismatch. -/
theorem C1_insert_panics_on_multibyte :
    Trie.insert (T := Nat) Trie.new ("é".toList) 0 = none ∧
    count_common_prefix_chars ("é".toList) ("é".toList) = 1 ∧
    byteLen ("é".toList) = 2 := by
  refine ⟨by rfl, by decide, by decide⟩

/-- C2 (counterexample): `Trie::get` does not strip the trailing wildcard
marker.  After inserting the exact route "/a", looking up the literal
"/a/*" finds nothing, whereas a lookup of the stripped path "/a" returns
the value — so get does not traverse with the stripped path as claimed. -/
theorem C2_counterexample_get_literal :
    (Trie.insert (T := Nat) Trie.new ("/a".toList) 1).map
      (fun t => (Trie.get t ("/a/*".toList), Trie.get t ("/a".toList))) =
      some (none, some 1) := by decide

/-- C2 (amended): insert and remove first separate a trailing "/\x2a" marker
and recurse from the root with the marker-stripped path; get does not parse
the path and traverses with the literal string, as the last two conjuncts
witness behaviourally on a singleton trie. -/
theorem C2_amended_insert_remove_strip : ∀ (p : List Char) (v : Nat),
    Trie.parse_path (p ++ WILDCARD_SUFFIX) = (p, true) ∧
    (∀ t : Trie Nat, Trie.insert t (p ++ WILDCARD_SUFFIX) v =
      (t.root.insert p v true).map Trie.mk) ∧
    (∀ t : Trie Nat, Trie.remove t (p ++ WILDCARD_SUFFIX) =
      ((t.root.remove p true).1, ⟨(t.root.remove p true).2⟩)) ∧
    (asciiPath p → ¬ WILDCARD_SUFFIX <:+ p →
      ∃ t0 : Trie Nat, Trie.insert Trie.new p v = some t0 ∧
        Trie.get t0 p = some v ∧ Trie.get t0 (p ++ WILDCARD_SUFFIX) = none) := by
  intro p v
  refine ⟨parse_path_wild p, ?_, ?_, ?_⟩
  · intro t
    rw [Trie.insert_def, parse_path_wild]
  · intro t
    rw [Trie.remove_def, parse_path_wild]
  · intro hascii hnw
    have hpp : Trie.parse_path p = (p, false) := parse_path_not_wild hnw
    cases p with
    | nil =>
      refine ⟨⟨(RadixNode.new []).store_value v false⟩, ?_, ?_, ?_⟩
      · rw [Trie.insert_def, hpp]
        simp only
        rw [show (Trie.new : Trie Nat).root = RadixNode.new [] from rfl, insert_new_nil]
        rfl
      · rw [Trie.get_def]
        show (RadixNode.mk [] [] (some v) none).get_with_fallback [] none = some v
        rw [gwf_nil]
        simp
      · rw [Trie.get_def]
        show (RadixNode.mk [] [] (some v) none).get_with_fallback
          ([] ++ WILDCARD_SUFFIX) none = none
        rw [show ([] ++ WILDCARD_SUFFIX : List Char) = '/' :: ['*'] from rfl]
        rw [gwf_root_nochild (R := RadixNode.mk [] [] (some v) none) none rfl
          (by simp [findChild])]
        simp
    | cons c rest =>
      refine ⟨⟨.mk [] [(c, (RadixNode.new (c :: rest)).store_value v false)] none none⟩,
        ?_, ?_, ?_⟩
      · rw [Trie.insert_def, hpp]
        simp only
        rw [show (Trie.new : Trie Nat).root = RadixNode.new [] from rfl,
          insert_new_cons hascii rfl]
        rfl
      · rw [Trie.get_def]
        show (RadixNode.mk [] [(c, RadixNode.mk (c :: rest) [] (some v) none)] none
          none).get_with_fallback (c :: rest) none = some v
        rw [gwf_root_child
          (R := RadixNode.mk [] [(c, RadixNode.mk (c :: rest) [] (some v) none)] none none)
          (S := RadixNode.mk (c :: rest) [] (some v) none) none rfl (by simp [findChild])]
        rw [gwf_step_exact (m := RadixNode.mk (c :: rest) [] (some v) none) _ hascii
          (by simp) rfl]
        simp
      · rw [Trie.get_def]
        show (RadixNode.mk [] [(c, RadixNode.mk (c :: rest) [] (some v) none)] none
          none).get_with_fallback ((c :: rest) ++ WILDCARD_SUFFIX) none = none
        rw [List.cons_append]
        rw [gwf_root_child
          (R := RadixNode.mk [] [(c, RadixNode.mk (c :: rest) [] (some v) none)] none none)
          (S := RadixNode.mk (c :: rest) [] (some v) none) none rfl (by simp [findChild])]
        rw [← List.cons_append]
        rw [gwf_leaf_append (S := RadixNode.mk (c :: rest) [] (some v) none) _ hascii
          (by simp) rfl rfl]
        simp [WILDCARD_SUFFIX]

/-- C2 (witness): the amended statement instantiated at the path "/a" and
value 1, every hypothesis discharged by computation. -/
theorem C2_amended_witness :
    Trie.parse_path ("/a".toList ++ WILDCARD_SUFFIX) = ("/a".toList, true) ∧
    (∃ t0 : Trie Nat, Trie.insert Trie.new ("/a".toList) 1 = some t0 ∧
      Trie.get t0 ("/a".toList) = some 1 ∧
      Trie.get t0 ("/a".toList ++ WILDCARD_SUFFIX) = none) :=
  ⟨(C2_amended_insert_remove_strip ("/a".toList) 1).1,
    (C2_amended_insert_remove_strip ("/a".toList) 1).2.2.2 (by decide) (by decide)⟩

/-- C4 (counterexample): the claim's general clause — when two wildcard
routes both cover a queried path, the one whose base path is the longer
prefix of the query wins — is false.  Wildcard routes are installed at the
bases "" (via "/\x2a" ↦ 1) and "éa" (via "éa/\x2a" ↦ 2); both bases are
character-level prefixes of the query "éa", the deeper base is "éa"
itself, yet the lookup answers 1, the shallower wildcard: the char count 2
against the stored prefix "éa" differs from its byte length 3, so the
deeper wildcard is never reached. -/
theorem C4_counterexample_deeper_loses :
    ((Trie.insert (T := Nat) Trie.new ("/*".toList) 1).bind (fun t =>
      (Trie.insert t ("éa/*".toList) 2).map (fun t2 => Trie.get t2 ("éa".toList))) =
      some (some 1)) ∧
    (("".toList : List Char) <+: "éa".toList ∧ "éa".toList <+: "éa".toList) := by
  exact ⟨by decide, by decide⟩

/-- C4 (amended): get realizes exact-beats-wildcard and, over ASCII
routes, deepest-wildcard-beats-shallower-wildcard precedence.  First
conjunct: an exact entry at p wins at p itself, on any trie, whatever
wildcard routes are present.  Second conjunct: for any ASCII base q and
nonempty ASCII extension, with wildcards installed at q and at its
extension, a query extending both (by an arbitrary further tail) is
answered by the deeper wildcard.  Third conjunct: the spec's own example
paths with arbitrary values A and B. -/
theorem C4_amended_precedence {T : Type} :
    (∀ (t t' : Trie T) (p : List Char) (v : T), asciiPath p →
      ¬ WILDCARD_SUFFIX <:+ p → Trie.insert t p v = some t' →
      Trie.get t' p = some v) ∧
    (∀ (q ext more : List Char) (A B : T), asciiPath q → asciiPath ext → ext ≠ [] →
      ∃ t1 t2 : Trie T,
        Trie.insert Trie.new (q ++ WILDCARD_SUFFIX) A = some t1 ∧
        Trie.insert t1 ((q ++ ext) ++ WILDCARD_SUFFIX) B = some t2 ∧
        Trie.get t2 ((q ++ ext) ++ more) = some B) ∧
    (∀ A B : T, ∃ t1 t2 : Trie T,
        Trie.insert Trie.new ("/api/*".toList) A = some t1 ∧
        Trie.insert t1 ("/api/users".toList) B = some t2 ∧
        Trie.get t2 ("/api/users".toList) = some B ∧
        Trie.get t2 ("/api/posts".toList) = some A) := by
  refine ⟨?_, ?_, ?_⟩
  · intro t t' p v hascii hnw h
    rw [Trie.insert_def, parse_path_not_wild hnw] at h
    simp only [RadixNode.insert] at h
    cases hins : insertAux (nodeSize t.root + 2 * byteLen p + 2) t.root p v false with
    | none => rw [hins] at h; simp at h
    | some n' =>
      rw [hins] at h
      simp only [Option.map_some'] at h
      have ht' : t' = ⟨n'⟩ := (Option.some.inj h).symm
      rw [Trie.get_def, ht']
      exact insertAux_get_exact hascii hins none
  · intro q ext more A B hasciiq hasciie hextne
    obtain ⟨e, es, hext⟩ : ∃ e es, ext = e :: es := by
      cases ext with
      | nil => exact absurd rfl hextne
      | cons e es => exact ⟨e, es, rfl⟩
    subst hext
    cases q with
    | nil =>
      refine ⟨⟨RadixNode.mk [] [] none (some A)⟩,
        ⟨RadixNode.mk [] [(e, RadixNode.mk (e :: es) [] none (some B))] none (some A)⟩,
        ?_, ?_, ?_⟩
      · rw [Trie.insert_def, parse_path_wild]
        show ((Trie.new : Trie T).root.insert [] A true).map Trie.mk = _
        rw [show (Trie.new : Trie T).root = RadixNode.new [] from rfl, insert_new_nil]
        rfl
      · rw [Trie.insert_def, parse_path_wild]
        show (RadixNode.insert (RadixNode.mk [] [] none (some A)) ([] ++ e :: es) B
          true).map Trie.mk = some ⟨RadixNode.mk []
            [(e, RadixNode.mk (e :: es) [] none (some B))] none (some A)⟩
        rw [List.nil_append]
        unfold RadixNode.insert
        obtain ⟨f, hf, hf1⟩ : ∃ f, nodeSize (RadixNode.mk ([] : List Char)
            ([] : List (Char × RadixNode T)) none (some A)) +
            2 * byteLen (e :: es) + 2 = f + 1 ∧ 1 ≤ f :=
          ⟨nodeSize (RadixNode.mk ([] : List Char) ([] : List (Char × RadixNode T)) none
            (some A)) + 2 * byteLen (e :: es) + 1, by omega, by omega⟩
        rw [hf]
        have hpfxI : (RadixNode.mk ([] : List Char) ([] : List (Char × RadixNode T)) none
            (some A)).pfx = (e :: es).take 0 := rfl
        have hdropI : (e :: es).drop 0 = e :: es := rfl
        have hfcI : findChild ([] : List (Char × RadixNode T)) e = none := rfl
        rw [insertAux_step_fresh (v := B) (w := true) hasciie hpfxI (Nat.zero_le _)
          hdropI hfcI hf1]
        rfl
      · rw [Trie.get_def]
        show (RadixNode.mk [] [(e, RadixNode.mk (e :: es) [] none (some B))] none
          (some A)).get_with_fallback (([] ++ e :: es) ++ more) none = some B
        rw [List.nil_append, List.cons_append]
        rw [gwf_root_child
          (R := RadixNode.mk [] [(e, RadixNode.mk (e :: es) [] none (some B))] none
            (some A))
          (S := RadixNode.mk (e :: es) [] none (some B)) none rfl (by simp [findChild])]
        rw [← List.cons_append]
        rw [gwf_leaf_append (S := RadixNode.mk (e :: es) [] none (some B)) _ hasciie
          (by simp) rfl rfl]
        cases more <;> simp
    | cons c qr =>
      refine ⟨⟨RadixNode.mk [] [(c, RadixNode.mk (c :: qr) [] none (some A))] none none⟩,
        ⟨RadixNode.mk [] [(c, RadixNode.mk (c :: qr)
          [(e, RadixNode.mk (e :: es) [] none (some B))] none (some A))] none none⟩,
        ?_, ?_, ?_⟩
      · rw [Trie.insert_def, parse_path_wild]
        show ((Trie.new : Trie T).root.insert (c :: qr) A true).map Trie.mk = _
        rw [show (Trie.new : Trie T).root = RadixNode.new [] from rfl,
          insert_new_cons hasciiq rfl]
        rfl
      · rw [Trie.insert_def, parse_path_wild]
        show (RadixNode.insert (RadixNode.mk []
            [(c, RadixNode.mk (c :: qr) [] none (some A))] none none)
            ((c :: qr) ++ e :: es) B true).map Trie.mk =
          some ⟨RadixNode.mk [] [(c, RadixNode.mk (c :: qr)
            [(e, RadixNode.mk (e :: es) [] none (some B))] none (some A))] none none⟩
        unfold RadixNode.insert
        obtain ⟨f, hf, hf1⟩ : ∃ f, nodeSize (RadixNode.mk []
            [(c, RadixNode.mk (c :: qr) [] none (some A))] none none) +
            2 * byteLen ((c :: qr) ++ e :: es) + 2 = (f + 1) + 1 ∧ 1 ≤ f := by
          refine ⟨nodeSize (RadixNode.mk ([] : List Char)
            [(c, RadixNode.mk (c :: qr) [] none (some A))] none none) +
            2 * byteLen ((c :: qr) ++ e :: es), by omega, ?_⟩
          have := nodeSize_eq (RadixNode.mk ([] : List Char)
            [(c, RadixNode.mk (c :: qr) [] none (some A))] none none)
          omega
        rw [hf]
        have hinner : insertAux (f + 1) (RadixNode.mk (c :: qr) [] none (some A))
            ((c :: qr) ++ e :: es) B true =
            some (RadixNode.mk (c :: qr)
              [(e, RadixNode.mk (e :: es) [] none (some B))] none (some A)) := by
          have hpfxI : (RadixNode.mk (c :: qr) ([] : List (Char × RadixNode T)) none
              (some A)).pfx = ((c :: qr) ++ e :: es).take (c :: qr).length := by
            simp
          have hkI : (c :: qr).length ≤ ((c :: qr) ++ e :: es).length := by
            simp
          have hdropI : ((c :: qr) ++ e :: es).drop (c :: qr).length = e :: es := by
            simp
          have hfcI : findChild ([] : List (Char × RadixNode T)) e = none := rfl
          have hstep := insertAux_step_fresh (v := B) (w := true)
            (asciiPath_append hasciiq hasciie) hpfxI hkI hdropI hfcI hf1
          exact hstep
        have hpfxO : (RadixNode.mk [] [(c, RadixNode.mk (c :: qr) [] none (some A))]
            none none : RadixNode T).pfx = ((c :: qr) ++ e :: es).take 0 := rfl
        have hdropO : ((c :: qr) ++ e :: es).drop 0 = c :: (qr ++ e :: es) := rfl
        have hfcO : findChild [(c, RadixNode.mk (c :: qr) [] none (some A))] c =
            some (RadixNode.mk (c :: qr) [] none (some A)) := by
          simp [findChild]
        rw [insertAux_step_child (asciiPath_append hasciiq hasciie) hpfxO (Nat.zero_le _)
          hdropO hfcO hinner]
        simp only [RadixNode.pfx_mk, RadixNode.children_mk, RadixNode.exact_value_mk,
          RadixNode.wildcard_value_mk, setChild, eq_self_iff_true, if_true,
          Option.map_some']
      · rw [Trie.get_def]
        show (RadixNode.mk [] [(c, RadixNode.mk (c :: qr)
          [(e, RadixNode.mk (e :: es) [] none (some B))] none (some A))] none
          none).get_with_fallback (((c :: qr) ++ e :: es) ++ more) none = some B
        rw [List.append_assoc, List.cons_append]
        rw [gwf_root_child
          (R := RadixNode.mk [] [(c, RadixNode.mk (c :: qr)
            [(e, RadixNode.mk (e :: es) [] none (some B))] none (some A))] none none)
          (S := RadixNode.mk (c :: qr)
            [(e, RadixNode.mk (e :: es) [] none (some B))] none (some A)) none rfl
          (by simp [findChild])]
        rw [← List.cons_append]
        have hpfxG : (RadixNode.mk (c :: qr)
            [(e, RadixNode.mk (e :: es) [] none (some B))] none (some A)).pfx =
            ((c :: qr) ++ (e :: es ++ more)).take (c :: qr).length := by
          simp
        have hkG : (c :: qr).length ≤ ((c :: qr) ++ (e :: es ++ more)).length := by
          simp
        have hdropG : ((c :: qr) ++ (e :: es ++ more)).drop (c :: qr).length =
            e :: (es ++ more) := by
          simp
        have hasciiG : asciiPath (((c :: qr) ++ (e :: es ++ more)).take
            (c :: qr).length) := by
          rw [show ((c :: qr) ++ (e :: es ++ more)).take (c :: qr).length = c :: qr
            from by simp]
          exact hasciiq
        rw [gwf_step_child_take (s := RadixNode.mk (e :: es) [] none (some B)) _ hasciiG
          hpfxG hkG hdropG (by simp [findChild])]
        rw [← List.cons_append]
        rw [gwf_leaf_append (S := RadixNode.mk (e :: es) [] none (some B)) _ hasciie
          (by simp) rfl rfl]
        cases more <;> simp
  · intro A B
    refine ⟨⟨RadixNode.mk [] [('/', RadixNode.mk ("/api".toList) [] none (some A))]
        none none⟩,
      ⟨RadixNode.mk [] [('/', RadixNode.mk ("/api".toList)
        [('/', RadixNode.mk ("/users".toList) [] (some B) none)] none (some A))]
        none none⟩, ?_, ?_, ?_, ?_⟩
    · rw [show ("/api/*".toList : List Char) = "/api".toList ++ WILDCARD_SUFFIX
        from by decide]
      rw [Trie.insert_def, parse_path_wild]
      show ((Trie.new : Trie T).root.insert ("/api".toList) A true).map Trie.mk = _
      rw [show (Trie.new : Trie T).root = RadixNode.new [] from rfl,
        insert_new_cons (by decide)
          (show ("/api".toList : List Char) = '/' :: "api".toList from by decide)]
      rfl
    · rw [Trie.insert_def, parse_path_not_wild (by decide)]
      show (RadixNode.insert (RadixNode.mk []
          [('/', RadixNode.mk ("/api".toList) [] none (some A))] none none)
          ("/api/users".toList) B false).map Trie.mk =
        some ⟨RadixNode.mk [] [('/', RadixNode.mk ("/api".toList)
          [('/', RadixNode.mk ("/users".toList) [] (some B) none)] none (some A))]
          none none⟩
      unfold RadixNode.insert
      rw [show nodeSize (RadixNode.mk ([] : List Char)
          [('/', RadixNode.mk ("/api".toList) [] none (some A))] none none) +
          2 * byteLen ("/api/users".toList) + 2 = (23 + 1) + 1 from rfl]
      have hinner : insertAux (23 + 1) (RadixNode.mk ("/api".toList) [] none (some A))
          ('/' :: "api/users".toList) B false =
          some (RadixNode.mk ("/api".toList)
            [('/', RadixNode.mk ("/users".toList) [] (some B) none)] none (some A)) := by
        have hpfxI : (RadixNode.mk ("/api".toList) ([] : List (Char × RadixNode T)) none
            (some A)).pfx = ('/' :: "api/users".toList).take 4 := by
          simp only [RadixNode.pfx_mk]; decide
        have hkI : 4 ≤ ('/' :: "api/users".toList).length := by decide
        have hdropI : ('/' :: "api/users".toList).drop 4 = '/' :: "users".toList := by
          decide
        have hfcI : findChild ([] : List (Char × RadixNode T)) '/' = none := rfl
        have hstep := insertAux_step_fresh (f := 23) (v := B) (w := false) (by decide)
          hpfxI hkI hdropI hfcI (by omega)
        exact hstep
      have hpfxO : (RadixNode.mk [] [('/', RadixNode.mk ("/api".toList) [] none
          (some A))] none none : RadixNode T).pfx = ("/api/users".toList).take 0 := rfl
      have hdropO : ("/api/users".toList).drop 0 = '/' :: "api/users".toList := by decide
      have hfcO : findChild [('/', RadixNode.mk ("/api".toList) [] none (some A))] '/' =
          some (RadixNode.mk ("/api".toList) [] none (some A)) := by
        simp [findChild]
      rw [insertAux_step_child (by decide) hpfxO (Nat.zero_le _) hdropO hfcO hinner]
      simp only [RadixNode.pfx_mk, RadixNode.children_mk, RadixNode.exact_value_mk,
        RadixNode.wildcard_value_mk, setChild, eq_self_iff_true, if_true,
        Option.map_some']
    · rw [Trie.get_def]
      show (RadixNode.mk [] [('/', RadixNode.mk ("/api".toList)
        [('/', RadixNode.mk ("/users".toList) [] (some B) none)] none (some A))] none
        none).get_with_fallback ("/api/users".toList) none = some B
      rw [show ("/api/users".toList : List Char) = '/' :: "api/users".toList
        from by decide]
      rw [gwf_root_child
        (R := RadixNode.mk [] [('/', RadixNode.mk ("/api".toList)
          [('/', RadixNode.mk ("/users".toList) [] (some B) none)] none (some A))]
          none none)
        (S := RadixNode.mk ("/api".toList)
          [('/', RadixNode.mk ("/users".toList) [] (some B) none)] none (some A)) none
        rfl (by simp [findChild])]
      have hpfxG : (RadixNode.mk ("/api".toList)
          [('/', RadixNode.mk ("/users".toList) [] (some B) none)] none (some A)).pfx =
          ('/' :: "api/users".toList).take 4 := by
        simp only [RadixNode.pfx_mk]; decide
      have hdropG : ('/' :: "api/users".toList).drop 4 = '/' :: "users".toList := by
        decide
      rw [gwf_step_child (s := RadixNode.mk ("/users".toList) [] (some B) none) _
        (by decide) hpfxG (by decide) hdropG (by simp [findChild])]
      rw [gwf_step_exact (m := RadixNode.mk ("/users".toList) [] (some B) none) _
        (by decide) (by decide) (by simp only [RadixNode.pfx_mk]; decide)]
      simp
    · rw [Trie.get_def]
      show (RadixNode.mk [] [('/', RadixNode.mk ("/api".toList)
        [('/', RadixNode.mk ("/users".toList) [] (some B) none)] none (some A))] none
        none).get_with_fallback ("/api/posts".toList) none = some A
      rw [show ("/api/posts".toList : List Char) = '/' :: "api/posts".toList
        from by decide]
      rw [gwf_root_child
        (R := RadixNode.mk [] [('/', RadixNode.mk ("/api".toList)
          [('/', RadixNode.mk ("/users".toList) [] (some B) none)] none (some A))]
          none none)
        (S := RadixNode.mk ("/api".toList)
          [('/', RadixNode.mk ("/users".toList) [] (some B) none)] none (some A)) none
        rfl (by simp [findChild])]
      have hpfxG : (RadixNode.mk ("/api".toList)
          [('/', RadixNode.mk ("/users".toList) [] (some B) none)] none (some A)).pfx =
          ('/' :: "api/posts".toList).take 4 := by
        simp only [RadixNode.pfx_mk]; decide
      have hdropG : ('/' :: "api/posts".toList).drop 4 = '/' :: "posts".toList := by
        decide
      rw [gwf_step_child (s := RadixNode.mk ("/users".toList) [] (some B) none) _
        (by decide) hpfxG (by decide) hdropG (by simp [findChild])]
      rw [gwf_diverge _ (by simp) (by simp only [RadixNode.pfx_mk]; decide)]
      simp

/-- C4 (witness): the amended precedence at concrete inputs: an exact
entry "/x" ↦ 5 read back from its singleton trie; wildcards at "/a" ↦ 1
and "/a/b" ↦ 2 with the query "/a/b/c" answered by 2; and the spec's
example with A = 3, B = 4. -/
theorem C4_witness :
    (asciiPath ("/x".toList) ∧ ¬ WILDCARD_SUFFIX <:+ "/x".toList ∧
      Trie.get (⟨RadixNode.mk [] [('/', RadixNode.mk ("/x".toList) [] (some 5) none)]
        none none⟩ : Trie Nat) ("/x".toList) = some 5) ∧
    (∃ t1 t2 : Trie Nat,
      Trie.insert Trie.new ("/a".toList ++ WILDCARD_SUFFIX) 1 = some t1 ∧
      Trie.insert t1 (("/a".toList ++ "/b".toList) ++ WILDCARD_SUFFIX) 2 = some t2 ∧
      Trie.get t2 (("/a".toList ++ "/b".toList) ++ "/c".toList) = some 2) ∧
    (∃ t1 t2 : Trie Nat,
      Trie.insert Trie.new ("/api/*".toList) 3 = some t1 ∧
      Trie.insert t1 ("/api/users".toList) 4 = some t2 ∧
      Trie.get t2 ("/api/users".toList) = some 4 ∧
      Trie.get t2 ("/api/posts".toList) = some 3) :=
  ⟨⟨by decide, by decide,
    (C4_amended_precedence (T := Nat)).1 Trie.new _ ("/x".toList) 5 (by decide)
      (by decide) rfl⟩,
   (C4_amended_precedence (T := Nat)).2.1 ("/a".toList) ("/b".toList) ("/c".toList) 1 2
     (by decide) (by decide) (by decide),
   (C4_amended_precedence (T := Nat)).2.2 3 4⟩

/-- C5: when the query diverges strictly inside a node's stored prefix
(the common prefix count is less than the prefix byte length, the code's
comparison), the lookup returns the inherited fallback — never the node's
own wildcard value, whatever is stored in it. -/
theorem C5_divergence_returns_inherited {T : Type} :
    ∀ (pfx : List Char) (cs : List (Char × RadixNode T)) (ev wv : Option T)
      (path : List Char) (fb : Option T), path ≠ [] →
      count_common_prefix_chars pfx path < byteLen pfx →
      (RadixNode.mk pfx cs ev wv).get_with_fallback path fb = fb := by
  intro pfx cs ev wv path fb hp hlt
  exact gwf_diverge fb hp (by simpa using Nat.ne_of_lt hlt)

/-- C5 (witness): a node storing prefix "ab" and wildcard 99, queried with
the diverging path "ax" under inherited fallback 7, answers 7. -/
theorem C5_witness :
    (RadixNode.mk ("ab".toList) [] none (some 99) : RadixNode Nat).get_with_fallback
      ("ax".toList) (some 7) = some 7 :=
  C5_divergence_returns_inherited ("ab".toList) [] none (some 99) ("ax".toList) (some 7)
    (by decide) (by decide)

/-- C3 (counterexample): the round-trip "insert then get returns the value"
fails outside the claim's stated exception.  First conjunct: inserting the
multi-byte path "éa" succeeds, yet the immediate lookup returns nothing
(the char count 2 is compared against the byte length 3 of the stored
prefix and treated as a divergence).  Second conjunct: after inserting the
wildcard route "/a//\x2a" ↦ 2 and then p = "/a/\x2a" ↦ 1, get(p) answers 2 —
but p is not equal to the base path "/a/" of that wildcard, so the claim's
exception clause does not cover this failure. -/
theorem C3_counterexample_roundtrip :
    ((Trie.insert (T := Nat) Trie.new ("éa".toList) 5).map
      (fun t => Trie.get t ("éa".toList)) = some none) ∧
    ((Trie.insert (T := Nat) Trie.new ("/a//*".toList) 2).bind (fun t =>
      (Trie.insert t ("/a/*".toList) 1).map (fun t2 => Trie.get t2 ("/a/*".toList))) =
      some (some 2)) := by
  exact ⟨by decide, by decide⟩

/-- C3 (amended): for every ASCII path p that does not end in the wildcard
marker "/\x2a", on any trie, a successful insert(p, v) followed by get(p)
returns v — unconditionally, with no exception clause needed: an exact
entry at p always wins the precedence at p itself. -/
theorem C3_amended_roundtrip_ascii {T : Type} (t t' : Trie T) (p : List Char) (v : T)
    (hascii : asciiPath p) (hnw : ¬ WILDCARD_SUFFIX <:+ p)
    (h : Trie.insert t p v = some t') :
    Trie.get t' p = some v := by
  rw [Trie.insert_def, parse_path_not_wild hnw] at h
  simp only [RadixNode.insert] at h
  cases hins : insertAux (nodeSize t.root + 2 * byteLen p + 2) t.root p v false with
  | none => rw [hins] at h; simp at h
  | some n' =>
    rw [hins] at h
    simp only [Option.map_some'] at h
    have ht' : t' = ⟨n'⟩ := (Option.some.inj h).symm
    rw [Trie.get_def, ht']
    exact insertAux_get_exact hascii hins none

/-- C3 (witness): the amended round-trip at t = empty, p = "/a", v = 1,
with the successful insert exhibited concretely. -/
theorem C3_amended_witness :
    asciiPath ("/a".toList) ∧ ¬ WILDCARD_SUFFIX <:+ ("/a".toList) ∧
    Trie.get (⟨RadixNode.mk [] [('/', RadixNode.mk ("/a".toList) [] (some 1) none)]
      none none⟩ : Trie Nat) ("/a".toList) = some 1 :=
  ⟨by decide, by decide,
    C3_amended_roundtrip_ascii Trie.new _ ("/a".toList) 1 (by decide) (by decide) rfl⟩

/-- C6 (counterexample): a wildcard route at a multi-byte base does not
match its base or its extensions.  The insert of "éa/\x2a" ↦ 7 (the
wildcard route based at "éa") succeeds, yet both get("éa") — the base
itself — and get("éaZ") — a character-level extension — return nothing:
the char count against the stored two-byte prefix never equals its byte
length, so the route matches no query at all. -/
theorem C6_counterexample_multibyte_base :
    (Trie.insert (T := Nat) Trie.new ("éa/*".toList) 7).map
      (fun t => (Trie.get t ("éa".toList), Trie.get t ("éaZ".toList))) =
      some (none, none) := by decide

/-- C6 (amended): a wildcard route registered at an ASCII base path q
(insert of q ++ "/\x2a") matches q itself (ext = []) and every
character-level extension of q, including extensions that do not start a
new "/" segment, when no more specific entry overrides it: on a fresh trie
the insert succeeds and get(q ++ ext) answers the wildcard's value for
every ext. -/
theorem C6_wildcard_breadth {T : Type} (q ext : List Char) (A : T)
    (hascii : asciiPath q) :
    ∃ t' : Trie T, Trie.insert Trie.new (q ++ WILDCARD_SUFFIX) A = some t' ∧
      Trie.get t' (q ++ ext) = some A := by
  rw [Trie.insert_def, parse_path_wild]
  cases q with
  | nil =>
    refine ⟨⟨(RadixNode.new []).store_value A true⟩, ?_, ?_⟩
    · show ((Trie.new : Trie T).root.insert [] A true).map Trie.mk = _
      rw [show (Trie.new : Trie T).root = RadixNode.new [] from rfl, insert_new_nil]
      rfl
    · rw [Trie.get_def]
      show (RadixNode.mk [] [] none (some A)).get_with_fallback ([] ++ ext) none = some A
      cases ext with
      | nil => rw [List.nil_append, gwf_nil]; simp
      | cons e es =>
        rw [List.nil_append]
        rw [gwf_root_nochild (R := RadixNode.mk [] [] none (some A)) none rfl
          (by simp [findChild])]
        simp
  | cons c rest =>
    refine ⟨⟨.mk [] [(c, (RadixNode.new (c :: rest)).store_value A true)] none none⟩,
      ?_, ?_⟩
    · show ((Trie.new : Trie T).root.insert (c :: rest) A true).map Trie.mk = _
      rw [show (Trie.new : Trie T).root = RadixNode.new [] from rfl,
        insert_new_cons hascii rfl]
      rfl
    · rw [Trie.get_def]
      show (RadixNode.mk [] [(c, RadixNode.mk (c :: rest) [] none (some A))] none
        none).get_with_fallback ((c :: rest) ++ ext) none = some A
      rw [List.cons_append]
      rw [gwf_root_child
        (R := RadixNode.mk [] [(c, RadixNode.mk (c :: rest) [] none (some A))] none none)
        (S := RadixNode.mk (c :: rest) [] none (some A)) none rfl (by simp [findChild])]
      rw [← List.cons_append]
      rw [gwf_leaf_append (S := RadixNode.mk (c :: rest) [] none (some A)) _ hascii
        (by simp) rfl rfl]
      cases ext <;> simp

/-- C6 (witness): the spec's own example, q = "/api", value 7, queried at
the multi-segment extension "/anything/nested/deep". -/
theorem C6_witness :
    asciiPath ("/api".toList) ∧
    (∃ t' : Trie Nat, Trie.insert Trie.new ("/api".toList ++ WILDCARD_SUFFIX) 7 = some t' ∧
      Trie.get t' ("/api".toList ++ "/anything/nested/deep".toList) = some 7) :=
  ⟨by decide, C6_wildcard_breadth ("/api".toList) ("/anything/nested/deep".toList) 7
    (by decide)⟩

/-- C7 (counterexample): "remove after insert returns v, and a subsequent
get is none unless a wildcard at a *proper prefix* still covers p" fails
twice.  First conjunct: inserting the multi-byte path "éa" succeeds but the
immediate remove finds nothing.  Second conjunct: with "/a" ↦ 1 and the
wildcard "/a/\x2a" ↦ 2 installed, remove("/a") does return 1, but the
subsequent get("/a") answers 2 from the wildcard whose base path is "/a"
itself — equal to p, not a proper prefix of p — so the claim's exception
clause does not cover it. -/
theorem C7_counterexample_remove :
    ((Trie.insert (T := Nat) Trie.new ("éa".toList) 5).map
      (fun t => (Trie.remove t ("éa".toList)).1) = some none) ∧
    (((Trie.insert (T := Nat) Trie.new ("/a".toList) 1).bind (fun t =>
      (Trie.insert t ("/a/*".toList) 2).map (fun t2 =>
        ((Trie.remove t2 ("/a".toList)).1,
          Trie.get (Trie.remove t2 ("/a".toList)).2 ("/a".toList))))) =
      some (some 1, some 2)) := by
  exact ⟨by decide, by decide⟩

/-- C7 (amended): for every ASCII path p and value v: on any trie,
remove(p) after a successful insert(p, v) returns v — the trailing "/\x2a"
convention is respected because insert and remove parse the path the same
way; after any removal of p no value remains under p's key, so an
immediately repeated remove(p) returns none; and for p without the
wildcard marker (get traverses the path literally), a subsequent get(p)
returns none unless a wildcard route still covers p — in particular, on
any trie carrying no wildcard route at all, get(p) after the removal
returns none. -/
theorem C7_amended_remove_roundtrip {T : Type} (p : List Char) (v : T)
    (hascii : asciiPath p) :
    (∀ t t' : Trie T, Trie.insert t p v = some t' →
      (Trie.remove t' p).1 = some v) ∧
    (∀ t : Trie T, (Trie.remove (Trie.remove t p).2 p).1 = none) ∧
    (¬ WILDCARD_SUFFIX <:+ p →
      ∀ t t' : Trie T, noWild t.root = true → Trie.insert t p v = some t' →
        Trie.get (Trie.remove t' p).2 p = none) := by
  have hmain : ∀ t t' : Trie T, Trie.insert t p v = some t' →
      (Trie.remove t' p).1 = some v := by
    intro t t' h
    rw [Trie.insert_def] at h
    simp only [RadixNode.insert] at h
    cases hins : insertAux (nodeSize t.root + 2 * byteLen (Trie.parse_path p).1 + 2)
        t.root (Trie.parse_path p).1 v (Trie.parse_path p).2 with
    | none => rw [hins] at h; simp at h
    | some n' =>
      rw [hins] at h
      simp only [Option.map_some'] at h
      have ht' : t' = ⟨n'⟩ := (Option.some.inj h).symm
      rw [Trie.remove_def, ht']
      exact insertAux_remove_back (asciiPath_parse hascii) hins
  refine ⟨hmain, fun t => trie_remove_twice t p, ?_⟩
  intro hnw t t' hnwild h
  have hpp : Trie.parse_path p = (p, false) := parse_path_not_wild hnw
  rw [Trie.insert_def, hpp] at h
  simp only [RadixNode.insert] at h
  cases hins : insertAux (nodeSize t.root + 2 * byteLen p + 2) t.root p v false with
  | none => rw [hins] at h; simp at h
  | some n' =>
    rw [hins] at h
    simp only [Option.map_some'] at h
    have ht' : t' = ⟨n'⟩ := (Option.some.inj h).symm
    have hnw1 : noWild n' = true := noWild_insertAux _ hins hnwild
    have had := @removeAux_adequate T (nodeSize n' + 1) n' p false (by omega)
    obtain ⟨pr, hpr⟩ := Option.isSome_iff_exists.mp had
    have hrm : n'.remove p false = pr := remove_of_removeAux hpr
    have hnw2 : noWild pr.2 = true := noWild_removeAux _ hpr hnw1
    have htw := trie_remove_twice t' p
    rw [Trie.remove_def, Trie.remove_def, hpp, ht'] at htw
    simp only at htw
    rw [hrm] at htw
    rw [Trie.remove_def, hpp, ht']
    simp only
    rw [Trie.get_def]
    show (n'.remove p false).2.get_with_fallback p none = none
    rw [hrm]
    rw [noWild_get (nodeSize pr.2) pr.2 p none (Nat.le_refl _) hnw2 hascii]
    rw [htw]
    rfl

/-- C7 (witness): the amended statement at p = "/a", v = 1, starting from
the empty (wildcard-free) trie, with the inserted singleton exhibited
concretely. -/
theorem C7_witness :
    asciiPath ("/a".toList) ∧ ¬ WILDCARD_SUFFIX <:+ ("/a".toList) ∧
    noWild (Trie.new (T := Nat)).root = true ∧
    ((Trie.remove (⟨RadixNode.mk [] [('/', RadixNode.mk ("/a".toList) [] (some 1) none)]
        none none⟩ : Trie Nat) ("/a".toList)).1 = some 1 ∧
      (Trie.remove (Trie.remove (⟨RadixNode.mk []
        [('/', RadixNode.mk ("/a".toList) [] (some 1) none)] none none⟩ : Trie Nat)
        ("/a".toList)).2 ("/a".toList)).1 = none ∧
      Trie.get (Trie.remove (⟨RadixNode.mk []
        [('/', RadixNode.mk ("/a".toList) [] (some 1) none)] none none⟩ : Trie Nat)
        ("/a".toList)).2 ("/a".toList) = none) :=
  ⟨by decide, by decide, by decide,
    (C7_amended_remove_roundtrip ("/a".toList) 1 (by decide)).1 Trie.new _ rfl,
    (C7_amended_remove_roundtrip ("/a".toList) 1 (by decide)).2.1 _,
    (C7_amended_remove_roundtrip ("/a".toList) 1 (by decide)).2.2 (by decide) Trie.new _
      (by decide) rfl⟩

/-- C8: when remove(p) finds no stored value for p's parsed key (it
returns none), the trie is left completely unchanged — the resulting trie
equals the original, so every subsequent get and remove behaves exactly as
before the failed removal. -/
theorem C8_noop_remove_preserves_trie {T : Type} (t : Trie T) (p : List Char)
    (h : (Trie.remove t p).1 = none) : (Trie.remove t p).2 = t := by
  rw [Trie.remove_def] at h ⊢
  have had := @removeAux_adequate T (nodeSize t.root + 1) t.root
    (Trie.parse_path p).1 (Trie.parse_path p).2 (by omega)
  obtain ⟨pr, hpr⟩ := Option.isSome_iff_exists.mp had
  have h1 : t.root.remove (Trie.parse_path p).1 (Trie.parse_path p).2 = pr :=
    remove_of_removeAux hpr
  rw [h1] at h ⊢
  obtain ⟨r, n2⟩ := pr
  simp only at h ⊢
  subst h
  have hn2 : n2 = t.root := removeAux_unchanged hpr
  rw [hn2]

/-- C8 (witness): removing "/x" from the empty trie returns none, and the
theorem yields that the resulting trie is the empty trie again. -/
theorem C8_witness :
    (Trie.remove (T := Nat) Trie.new ("/x".toList)).1 = none ∧
    (Trie.remove (T := Nat) Trie.new ("/x".toList)).2 = Trie.new :=
  ⟨by decide, C8_noop_remove_preserves_trie Trie.new ("/x".toList) (by decide)⟩

/-- C9: `is_empty` is true exactly when the root holds no values and no
children; the fresh trie is empty; inserting at any path whose
marker-stripped form is nonempty makes it non-empty; and it stays
non-empty after that sole entry is removed, because removal never prunes
the interior node it leaves behind. -/
theorem C9_is_empty_behaviour {T : Type} :
    (∀ t : Trie T, Trie.is_empty t = true ↔
      (t.root.children = [] ∧ t.root.exact_value = none ∧
        t.root.wildcard_value = none)) ∧
    Trie.is_empty (Trie.new (T := T)) = true ∧
    (∀ (p : List Char) (v : T) (t' : Trie T), (Trie.parse_path p).1 ≠ [] →
      Trie.insert Trie.new p v = some t' →
      Trie.is_empty t' = false ∧ Trie.is_empty (Trie.remove t' p).2 = false) := by
  refine ⟨?_, by rfl, ?_⟩
  · intro t
    simp [Trie.is_empty, Bool.and_eq_true, List.isEmpty_iff, Option.isNone_iff_eq_none,
      and_assoc]
  · intro p v t' hq h
    rw [Trie.insert_def] at h
    simp only [RadixNode.insert] at h
    rw [show (Trie.new : Trie T).root = RadixNode.new [] from rfl] at h
    cases hins : insertAux (nodeSize (RadixNode.new ([] : List Char)) +
        2 * byteLen (Trie.parse_path p).1 + 2) (RadixNode.new [])
        (Trie.parse_path p).1 v (Trie.parse_path p).2 with
    | none => rw [hins] at h; simp at h
    | some n' =>
      rw [hins] at h
      simp only [Option.map_some'] at h
      have ht' : t' = ⟨n'⟩ := (Option.some.inj h).symm
      have hch : n'.children ≠ [] := insertAux_new_children hq hins
      constructor
      · rw [ht']
        simp [Trie.is_empty, isEmpty_false_of_ne hch]
      · rw [Trie.remove_def, ht']
        have had := @removeAux_adequate T (nodeSize n' + 1) n'
          (Trie.parse_path p).1 (Trie.parse_path p).2 (by omega)
        obtain ⟨pr, hpr⟩ := Option.isSome_iff_exists.mp had
        have h1 : n'.remove (Trie.parse_path p).1 (Trie.parse_path p).2 = pr :=
          remove_of_removeAux hpr
        show Trie.is_empty
          (⟨(n'.remove (Trie.parse_path p).1 (Trie.parse_path p).2).2⟩ : Trie T) = false
        rw [h1]
        have hch2 : pr.2.children ≠ [] := removeAux_children_ne_nil hpr hch
        simp [Trie.is_empty, isEmpty_false_of_ne hch2]

/-- C9 (witness): the fresh trie is empty; inserting "/a" ↦ 1 yields a
concrete non-empty trie which stays non-empty after removing "/a". -/
theorem C9_witness :
    (Trie.parse_path ("/a".toList)).1 ≠ [] ∧
    Trie.insert (T := Nat) Trie.new ("/a".toList) 1 =
      some ⟨RadixNode.mk [] [('/', RadixNode.mk ("/a".toList) [] (some 1) none)]
        none none⟩ ∧
    (Trie.is_empty (⟨RadixNode.mk []
        [('/', RadixNode.mk ("/a".toList) [] (some 1) none)]
        none none⟩ : Trie Nat) = false ∧
      Trie.is_empty (Trie.remove (⟨RadixNode.mk []
        [('/', RadixNode.mk ("/a".toList) [] (some 1) none)] none none⟩ : Trie Nat)
        ("/a".toList)).2 = false) :=
  ⟨by decide, by rfl,
    (C9_is_empty_behaviour (T := Nat)).2.2 ("/a".toList) 1 _ (by decide) rfl⟩

/-- C10 (counterexample): the refinement to a finite map fails on
multi-byte keys.  The single insert of "éa" ↦ 1 succeeds, yet the
subsequent remove("éa") returns nothing, while the spec's map — keyed by
the parsed (marker-stripped path, wildcard flag) pair — holds 1 for that
key. -/
theorem C10_counterexample_refinement :
    ((foldInserts (T := Nat) Trie.new [("éa".toList, 1)]).map
      (fun t => (Trie.remove t ("éa".toList)).1) = some none) ∧
    specLookup [(("éa".toList : List Char), (1 : Nat))]
      (Trie.parse_path ("éa".toList)) = some 1 := by
  exact ⟨by decide, by decide⟩

/-- C10 (amended): over ASCII paths the trie refines the finite map keyed
by (marker-stripped path, wildcard flag): after any successful sequence of
inserts starting from the empty trie, remove(q) returns exactly the value
of the most recent insert whose key equals q's key (none if there is
none), unaffected by inserts under other keys, and an immediately repeated
remove(q) returns none. -/
theorem C10_amended_refines_map {T : Type} (L : List (List Char × T)) (t : Trie T)
    (q : List Char) (hL : ∀ pv ∈ L, asciiPath pv.1) (hq : asciiPath q)
    (h : foldInserts Trie.new L = some t) :
    (Trie.remove t q).1 = specLookup L (Trie.parse_path q) ∧
    (Trie.remove (Trie.remove t q).2 q).1 = none := by
  refine ⟨?_, trie_remove_twice t q⟩
  have hmain := fold_refines_aux (s := Trie.new) rfl hL hq h
  rw [hmain]
  cases hsl : specLookup L (Trie.parse_path q) with
  | some r => rfl
  | none =>
    simp only
    rw [Trie.remove_def]
    exact remove_new_none [] (Trie.parse_path q).1 (Trie.parse_path q).2

/-- C10 (witness): L = [("/a", 1), ("/a", 2)] and q = "/a": the later
insert wins, remove returns 2 as the spec map does, and a second remove
returns none. -/
theorem C10_witness :
    (∀ pv ∈ [(("/a".toList : List Char), (1 : Nat)), ("/a".toList, 2)], asciiPath pv.1) ∧
    asciiPath ("/a".toList) ∧
    foldInserts (T := Nat) Trie.new [("/a".toList, 1), ("/a".toList, 2)] =
      some ⟨RadixNode.mk [] [('/', RadixNode.mk ("/a".toList) [] (some 2) none)]
        none none⟩ ∧
    ((Trie.remove (⟨RadixNode.mk []
        [('/', RadixNode.mk ("/a".toList) [] (some 2) none)] none none⟩ : Trie Nat)
        ("/a".toList)).1 =
      specLookup [("/a".toList, 1), ("/a".toList, 2)] (Trie.parse_path ("/a".toList)) ∧
     (Trie.remove (Trie.remove (⟨RadixNode.mk []
        [('/', RadixNode.mk ("/a".toList) [] (some 2) none)] none none⟩ : Trie Nat)
        ("/a".toList)).2 ("/a".toList)).1 = none) :=
  ⟨by decide, by decide, by rfl,
    C10_amended_refines_map [("/a".toList, 1), ("/a".toList, 2)] _ ("/a".toList)
      (by decide) (by decide) rfl⟩
